import Mathlib

/-!
# ollama-save: export and import of model archives

A shallow embedding of `ollama_save/util/ollamautil.go`.

* Go strings are lists of characters (`Str`); the separators the code looks at
  (`/`, `:`, `.`, `~`) are ASCII, so splitting a string at them agrees with Go's split of
  the UTF-8 bytes.
* The functions of Go's standard library the code calls (`strings.Split`, `strings.SplitN`,
  `strings.HasPrefix`, `filepath.Join`, `filepath.Clean`, `filepath.Base`, `filepath.Dir`)
  are modelled after their documented behaviour on Unix.
* The file system is a map from path strings to regular files. Directories are implicit;
  whether `os.MkdirAll` and `os.Create` succeed is decided by the environment (`Env`).
  A file is read in one piece: `io.Copy` does not fail half way.
* A `.tar.gz` file is modelled by the sequence of entries of its tar stream; the gzip and
  tar byte encodings are not modelled. `ExportModels` returns the entries it leaves in the
  output file, `ImportModels` takes what stands at the archive path.
* `json.Unmarshal` and the home directory of the user are parameters of the environment.
* The one run-time panic the code can raise (`strings.Split(digest, ":")[1]` on a digest
  without a colon) is the outcome `Outcome.indexPanic`.
-/

namespace OllamaSave

/-- Go `string` -/
abbrev Str := List Char

/-- File contents -/
abbrev Bytes := List Nat

/-! ## Standard library -/

/-- Go `strings.Split(s, sep)` for a separator of one character: all the pieces of `s`
between occurrences of `sep` (a string without `sep` is its only piece). -/
def stringsSplit (sep : Char) : Str → List Str
  | [] => [[]]
  | c :: cs =>
    if c = sep then [] :: stringsSplit sep cs
    else
      match stringsSplit sep cs with
      | [] => [[c]]
      | h :: t => (c :: h) :: t

/-- Go `strings.Cut(s, sep)`: the text before and after the first `sep`, if there is one. -/
def stringsCut (sep : Char) : Str → Option (Str × Str)
  | [] => none
  | c :: cs =>
    if c = sep then some ([], cs)
    else
      match stringsCut sep cs with
      | none => none
      | some (a, b) => some (c :: a, b)

/-- Go `strings.SplitN(s, sep, 2)`: at most two pieces, split at the first `sep`. -/
def stringsSplitN2 (sep : Char) (s : Str) : List Str :=
  match stringsCut sep s with
  | none => [s]
  | some (a, b) => [a, b]

/-- Go `strings.HasPrefix(s, pre)` -/
def stringsHasPrefix (s pre : Str) : Bool := pre.isPrefixOf s

/-- Go `strings.Join(elems, "/")` -/
def joinSlash : List Str → Str
  | [] => []
  | [a] => a
  | a :: b :: t => a ++ '/' :: joinSlash (b :: t)

/-- One path element processed by `filepath.Clean`; `st` holds the elements kept so far,
the last one first. Empty elements and `.` are dropped; `..` removes the element before it,
is dropped at the root of a rooted path and is kept at the start of a relative one. -/
def cleanStep (rooted : Bool) (st : List Str) (c : Str) : List Str :=
  if c = [] ∨ c = ['.'] then st
  else if c = ['.', '.'] then
    match st with
    | [] => if rooted then [] else [c]
    | top :: rest => if top = ['.', '.'] then c :: st else rest
  else c :: st

/-- The elements `filepath.Clean` keeps, in path order. -/
def cleanElems (rooted : Bool) (path : Str) : List Str :=
  ((stringsSplit '/' path).foldl (cleanStep rooted) []).reverse

/-- Tells whether a path starts with the separator. -/
def isRooted (path : Str) : Bool := path.head? = some '/'

/-- The string `filepath.Clean` returns for the kept elements. -/
def renderPath (rooted : Bool) (elems : List Str) : Str :=
  if rooted then '/' :: joinSlash elems
  else if elems = [] then ['.'] else joinSlash elems

/-- Go `filepath.Clean(path)` on Unix -/
def filepathClean (path : Str) : Str :=
  if path = [] then ['.']
  else renderPath (isRooted path) (cleanElems (isRooted path) path)

/-- Go `filepath.Join(elems...)` on Unix: leading empty elements are skipped, the rest is
joined with `/` and cleaned; the result is empty when every element is. -/
def filepathJoin (elems : List Str) : Str :=
  match elems.dropWhile (fun e => e = []) with
  | [] => []
  | e :: es => filepathClean (joinSlash (e :: es))

/-- Removes the trailing slashes of a path. -/
def stripTrailingSlashes (path : Str) : Str :=
  (path.reverse.dropWhile (fun c => c = '/')).reverse

/-- Go `filepath.Base(path)` on Unix: the last element of the path. -/
def filepathBase (path : Str) : Str :=
  if path = [] then ['.']
  else
    let last := (stringsSplit '/' (stripTrailingSlashes path)).getLastD []
    if last = [] then ['/'] else last

/-- Go `filepath.Dir(path)` on Unix: all but the last element, cleaned. -/
def filepathDir (path : Str) : Str :=
  filepathClean (path.reverse.dropWhile (fun c => c ≠ '/')).reverse

/-! ## Data model -/

/-- A layer of the manifest -/
structure ManifestLayer where
  Digest : Str
deriving DecidableEq, Repr

/-- The config section of the manifest -/
structure ManifestConfig where
  Digest : Str
deriving DecidableEq, Repr

/-- The manifest file structure -/
structure Manifest where
  Layers : List ManifestLayer
  Config : ManifestConfig
deriving DecidableEq, Repr

/-- A regular file: its bytes and the two `os.FileInfo` fields the exporter copies. -/
structure FileData where
  content : Bytes
  mode : Nat
  modTime : Nat
deriving DecidableEq, Repr

/-- The regular files of the file system, by path. -/
abbrev FS := Str → Option FileData

/-- A file system without files. -/
def emptyFS : FS := fun _ => none

/-- The file system after `data` is written at `path`. -/
def writeFile (fs : FS) (path : Str) (data : FileData) : FS :=
  fun p => if p = path then some data else fs p

/-- An entry of the tar stream: the `tar.Header` fields the code sets, and the body. -/
structure TarEntry where
  Name : Str
  Size : Nat
  Mode : Nat
  ModTime : Nat
  content : Bytes
deriving DecidableEq, Repr

/-- What `tarReader.Next` returns after the last complete entry. -/
inductive TarTail where
  | eof
  | corrupt
deriving DecidableEq, Repr

/-- What is found at the archive path handed to the importer. -/
inductive ArchiveFile where
  | missing
  | notGzip
  | tarGz (entries : List TarEntry) (tail : TarTail)
deriving DecidableEq, Repr

/-- What the code cannot decide by itself. -/
structure Env where
  /-- `user.Current().HomeDir`, when the lookup succeeds -/
  homeDir : Option Str
  /-- `json.Unmarshal(data, &manifest)`, when it succeeds -/
  unmarshal : Bytes → Option Manifest
  /-- tells whether `os.Create(path)` succeeds -/
  canCreate : Str → Bool
  /-- tells whether `os.MkdirAll(dir, 0755)` succeeds -/
  canMkdirAll : Str → Bool
  /-- mode of a file made by `os.Create` -/
  createMode : Nat
  /-- modification time of a file written now -/
  now : Nat

/-- The error of `os.Open`, which names the path. -/
inductive IOErr where
  | openFailed (path : Str)
deriving DecidableEq, Repr

/-- The errors the two operations return, one per `fmt.Errorf` of the source, with the
values the message is formatted from. -/
inductive Err where
  | expandUser
  | createOutput (path : Str)
  | manifestNotFound (model tag : Str)
  | readManifest (manifestPath : Str)
  | addManifest (cause : IOErr)
  | addConfigBlob (cause : IOErr)
  | addLayerBlob (cause : IOErr)
  | openArchive
  | gzipReader
  | readTarHeader
  | invalidManifestPath (name : Str)
  | createDirectories (dir : Str)
  | createFile (targetPath : Str)
  | noModels
deriving DecidableEq, Repr

/-- How a call ends: `nil`, an error, or the index-out-of-range panic. -/
inductive Outcome where
  | ok
  | error (e : Err)
  | indexPanic
deriving DecidableEq, Repr

/-! ## The program -/

/-- Source `expand_user`: a path that starts with `~` is joined to the home directory. -/
def expand_user (env : Env) (path : Str) : Option Str :=
  match path with
  | [] => some path
  | c :: rest =>
    if c ≠ '~' then some path
    else
      match env.homeDir with
      | none => none
      | some home => some (filepathJoin [home, rest])

/-- Source `readManifest`: reads the file and unmarshals it. -/
def readManifest (env : Env) (fs : FS) (path : Str) : Option Manifest :=
  match fs path with
  | none => none
  | some f => env.unmarshal f.content

/-- Source `getBlobPath`: `strings.Split(digest, ":")[1]` is the hash; `none` is the panic
of the index expression when the digest has no colon. -/
def getBlobPath (ollamaDir : Str) (digest : Str) : Option Str :=
  match (stringsSplit ':' digest).get? 1 with
  | none => none
  | some hash => some (filepathJoin [ollamaDir, "blobs".toList, "sha256-".toList ++ hash])

/-- Source `getManifestBasePath` -/
def getManifestBasePath : Str :=
  filepathJoin ["manifests".toList, "registry.ollama.ai".toList, "library".toList]

/-- Source `getManifestPath` -/
def getManifestPath (model tag : Str) : Str :=
  filepathJoin [getManifestBasePath, model, tag]

/-- Source `addFileToTar`: opens the source file and appends header and body to the
archive written so far. -/
def addFileToTar (fs : FS) (tw : List TarEntry) (sourcePath targetPath : Str) :
    Except IOErr (List TarEntry) :=
  match fs sourcePath with
  | none => .error (.openFailed sourcePath)
  | some file =>
    .ok (tw ++ [{ Name := targetPath, Size := file.content.length, Mode := file.mode,
                  ModTime := file.modTime, content := file.content }])

/-- The loop over `manifest.Layers` in `ExportModels`. -/
def exportLayers (fs : FS) (ollamaDir : Str) :
    List ManifestLayer → List TarEntry → Outcome × List TarEntry
  | [], tw => (.ok, tw)
  | layer :: rest, tw =>
    match getBlobPath ollamaDir layer.Digest with
    | none => (.indexPanic, tw)
    | some blobPath =>
      match addFileToTar fs tw blobPath
          (filepathJoin ["blobs".toList, filepathBase blobPath]) with
      | .error e => (.error (.addLayerBlob e), tw)
      | .ok tw1 => exportLayers fs ollamaDir rest tw1

/-- The model name of a specifier: `parts[0]`. -/
def modelOf (modelSpec : Str) : Str :=
  (stringsSplitN2 ':' modelSpec).headD []

/-- The tag of a specifier: `latest`, or `parts[1]` when there is one. -/
def tagOf (modelSpec : Str) : Str :=
  let parts := stringsSplitN2 ':' modelSpec
  if parts.length > 1 then parts.getD 1 [] else "latest".toList

/-- The body of the loop over `models` in `ExportModels`, for one specifier; `tw` is the
archive written so far. The result holds the entries written when the body ends or
returns from `ExportModels`. -/
def exportModel (env : Env) (fs : FS) (ollamaDir : Str) (modelSpec : Str)
    (tw : List TarEntry) : Outcome × List TarEntry :=
  let model := modelOf modelSpec
  let tag := tagOf modelSpec
  let manifestPath := filepathJoin [ollamaDir, getManifestPath model tag]
  match fs manifestPath with
  | none => (.error (.manifestNotFound model tag), tw)
  | some _ =>
    match readManifest env fs manifestPath with
    | none => (.error (.readManifest manifestPath), tw)
    | some manifest =>
      match addFileToTar fs tw manifestPath (getManifestPath model tag) with
      | .error e => (.error (.addManifest e), tw)
      | .ok tw1 =>
        match getBlobPath ollamaDir manifest.Config.Digest with
        | none => (.indexPanic, tw1)
        | some configBlobPath =>
          match addFileToTar fs tw1 configBlobPath
              (filepathJoin ["blobs".toList, filepathBase configBlobPath]) with
          | .error e => (.error (.addConfigBlob e), tw1)
          | .ok tw2 => exportLayers fs ollamaDir manifest.Layers tw2

/-- The loop over `models` in `ExportModels`: the first specifier that does not end with
`nil` ends the call. -/
def exportLoop (env : Env) (fs : FS) (ollamaDir : Str) :
    List Str → List TarEntry → Outcome × List TarEntry
  | [], tw => (.ok, tw)
  | modelSpec :: rest, tw =>
    match exportModel env fs ollamaDir modelSpec tw with
    | (.ok, tw3) => exportLoop env fs ollamaDir rest tw3
    | r => r

/-- Source `ExportModels`. The second component is the content of the output file: `none`
when it was never created, else the entries of the archive, which the deferred `Close`
calls finish on every way out. The output file is taken to be none of the files read. -/
def ExportModels (env : Env) (fs : FS) (ollamaDir : Str) (models : List Str)
    (outputPath : Str) : Outcome × Option (List TarEntry) :=
  match expand_user env ollamaDir with
  | none => (.error .expandUser, none)
  | some dir =>
    if env.canCreate outputPath then
      let r := exportLoop env fs dir models []
      (r.1, some r.2)
    else (.error (.createOutput outputPath), none)

/-- The loop over the entries of the archive in `ImportModels`. -/
def importLoop (env : Env) (ollamaDir : Str) :
    List TarEntry → TarTail → FS → Nat → Outcome × FS
  | [], .eof, fs, processed =>
    if processed = 0 then (.error .noModels, fs) else (.ok, fs)
  | [], .corrupt, fs, _ => (.error .readTarHeader, fs)
  | header :: rest, tail, fs, processed =>
    let targetPath := filepathJoin [ollamaDir, header.Name]
    if stringsHasPrefix header.Name "manifests/".toList
        && !stringsHasPrefix header.Name getManifestBasePath then
      (.error (.invalidManifestPath header.Name), fs)
    else if !env.canMkdirAll (filepathDir targetPath) then
      (.error (.createDirectories (filepathDir targetPath)), fs)
    else if !env.canCreate targetPath then
      (.error (.createFile targetPath), fs)
    else
      importLoop env ollamaDir rest tail
        (writeFile fs targetPath
          { content := header.content, mode := env.createMode, modTime := env.now })
        (processed + 1)

/-- Source `ImportModels`; `archive` is what stands at `archivePath`. The result holds
the file system the call leaves behind. -/
def ImportModels (env : Env) (fs : FS) (ollamaDir : Str) (archive : ArchiveFile) :
    Outcome × FS :=
  match expand_user env ollamaDir with
  | none => (.error .expandUser, fs)
  | some dir =>
    match archive with
    | .missing => (.error .openArchive, fs)
    | .notGzip => (.error .gzipReader, fs)
    | .tarGz entries tail => importLoop env dir entries tail fs 0

/-! ## Notions used to state the properties -/

/-- A path element that `filepath.Clean` keeps as it is: not empty, without a separator,
neither `.` nor `..`. -/
def PlainElem (c : Str) : Prop :=
  c ≠ [] ∧ '/' ∉ c ∧ c ≠ ['.'] ∧ c ≠ ['.', '.']

instance (c : Str) : Decidable (PlainElem c) := by
  unfold PlainElem
  infer_instance

/-- What `filepath.Join(dir, …)` puts in front of a relative path of plain elements. -/
def dirLead (dir : Str) : Str :=
  let s := cleanElems (isRooted dir) dir
  if isRooted dir then (if s = [] then ['/'] else '/' :: joinSlash s ++ ['/'])
  else (if s = [] then [] else joinSlash s ++ ['/'])

/-- A hexadecimal digit. -/
def isHexChar (c : Char) : Bool :=
  c.isDigit || ('a' ≤ c && c ≤ 'f') || ('A' ≤ c && c ≤ 'F')

/-- The form the specification gives to a digest: `sha256:` followed by hexadecimal digits. -/
def isSha256Digest (digest : Str) : Bool :=
  "sha256:".toList.isPrefixOf digest && (digest.drop 7).all isHexChar

/-- The archive entry made from the file at `src`, if there is one: the header and body
`addFileToTar` writes. -/
def fileEntry (fs : FS) (src name : Str) : Option TarEntry :=
  match fs src with
  | none => none
  | some file =>
    some { Name := name, Size := file.content.length, Mode := file.mode,
           ModTime := file.modTime, content := file.content }

/-- The archive entry of the blob of a digest, if the digest has a hash part and the blob
file exists. -/
def blobEntry (fs : FS) (ollamaDir digest : Str) : Option TarEntry :=
  match getBlobPath ollamaDir digest with
  | none => none
  | some blobPath =>
    fileEntry fs blobPath (filepathJoin ["blobs".toList, filepathBase blobPath])

/-- The path of the manifest file of a specifier in the store. -/
def manifestPathOf (ollamaDir modelSpec : Str) : Str :=
  filepathJoin [ollamaDir, getManifestPath (modelOf modelSpec) (tagOf modelSpec)]

/-- The archive entry of the manifest of a specifier, if the manifest file exists. -/
def manifestEntry (fs : FS) (ollamaDir modelSpec : Str) : Option TarEntry :=
  fileEntry fs (manifestPathOf ollamaDir modelSpec)
    (getManifestPath (modelOf modelSpec) (tagOf modelSpec))

/-- The parsed manifest of a specifier, if the file exists and parses. -/
def manifestOf (env : Env) (fs : FS) (ollamaDir modelSpec : Str) : Option Manifest :=
  readManifest env fs (manifestPathOf ollamaDir modelSpec)

/-- The digests a manifest references: the config digest, then the layers in order. -/
def manifestDigests (manifest : Manifest) : List Str :=
  manifest.Config.Digest :: manifest.Layers.map (fun l => l.Digest)

/-- The specification's list of layer entries: one entry per layer, in manifest order. -/
def layerEntries (fs : FS) (ollamaDir : Str) : List ManifestLayer → Option (List TarEntry)
  | [] => some []
  | layer :: rest =>
    match blobEntry fs ollamaDir layer.Digest, layerEntries fs ollamaDir rest with
    | some e, some es => some (e :: es)
    | _, _ => none

/-- The specification's entries for one specifier: the manifest entry, the config blob
entry, then one entry per layer in manifest order (each entry being the one `addFileToTar`
makes of the file); `none` when the manifest or a blob is missing. -/
def modelEntries (env : Env) (fs : FS) (ollamaDir modelSpec : Str) :
    Option (List TarEntry) :=
  match manifestOf env fs ollamaDir modelSpec, manifestEntry fs ollamaDir modelSpec with
  | some manifest, some me =>
    match blobEntry fs ollamaDir manifest.Config.Digest,
        layerEntries fs ollamaDir manifest.Layers with
    | some ce, some les => some (me :: ce :: les)
    | _, _ => none
  | _, _ => none

/-- The specification's archive for a list of specifiers: the concatenation of the entries
of each specifier, in input order. -/
def archiveEntries (env : Env) (fs : FS) (ollamaDir : Str) :
    List Str → Option (List TarEntry)
  | [] => some []
  | modelSpec :: rest =>
    match modelEntries env fs ollamaDir modelSpec, archiveEntries env fs ollamaDir rest with
    | some es, some more => some (es ++ more)
    | _, _ => none

/-- The number of layers of the manifest of a specifier (0 without a manifest). -/
def layerCount (env : Env) (fs : FS) (ollamaDir modelSpec : Str) : Nat :=
  match manifestOf env fs ollamaDir modelSpec with
  | some manifest => manifest.Layers.length
  | none => 0

/-- The specification's number of entries: the sum over the specifiers of 2 plus the
number of layers. -/
def entryCount (env : Env) (fs : FS) (ollamaDir : Str) (models : List Str) : Nat :=
  (models.map (fun modelSpec => 2 + layerCount env fs ollamaDir modelSpec)).sum

/-- A store at `/store` with the models `a:1`, `b:2` and `c:3`. The first two reference
the blob `sha256:aa`; the blob `sha256:bb` that `c:3` references is missing. A manifest
file holds one byte that stands for its JSON text. -/
def demoFS : FS := fun p =>
  if p = "/store/manifests/registry.ollama.ai/library/a/1".toList then
    some { content := [1], mode := 420, modTime := 5 }
  else if p = "/store/manifests/registry.ollama.ai/library/b/2".toList then
    some { content := [2], mode := 420, modTime := 6 }
  else if p = "/store/manifests/registry.ollama.ai/library/c/3".toList then
    some { content := [3], mode := 420, modTime := 7 }
  else if p = "/store/blobs/sha256-c0".toList then
    some { content := [10, 11], mode := 420, modTime := 1 }
  else if p = "/store/blobs/sha256-c1".toList then
    some { content := [12], mode := 420, modTime := 2 }
  else if p = "/store/blobs/sha256-aa".toList then
    some { content := [20, 21, 22], mode := 420, modTime := 3 }
  else none

/-- The manifest of the model `a:1` of the demo store. -/
def demoManifestA : Manifest :=
  { Layers := [{ Digest := "sha256:aa".toList }], Config := { Digest := "sha256:c0".toList } }

/-- The manifests of the demo store. -/
def demoUnmarshal (data : Bytes) : Option Manifest :=
  if data = [1] then some demoManifestA
  else if data = [2] then
    some { Layers := [{ Digest := "sha256:aa".toList }],
           Config := { Digest := "sha256:c1".toList } }
  else if data = [3] then
    some { Layers := [{ Digest := "sha256:bb".toList }],
           Config := { Digest := "sha256:c0".toList } }
  else none

/-- The environment of the demo store. -/
def demoEnv : Env :=
  { homeDir := some "/home/user".toList
    unmarshal := demoUnmarshal
    canCreate := fun _ => true
    canMkdirAll := fun _ => true
    createMode := 420
    now := 0 }

/-- The archive entry of the blob `sha256:aa` of the demo store. -/
def demoSharedBlob : TarEntry :=
  { Name := "blobs/sha256-aa".toList, Size := 3, Mode := 420, ModTime := 3,
    content := [20, 21, 22] }

/-- The archive of the models `a:1` and `b:2` of the demo store. -/
def demoArchive : List TarEntry :=
  [ { Name := "manifests/registry.ollama.ai/library/a/1".toList, Size := 1, Mode := 420,
      ModTime := 5, content := [1] },
    { Name := "blobs/sha256-c0".toList, Size := 2, Mode := 420, ModTime := 1,
      content := [10, 11] },
    { Name := "blobs/sha256-aa".toList, Size := 3, Mode := 420, ModTime := 3,
      content := [20, 21, 22] },
    { Name := "manifests/registry.ollama.ai/library/b/2".toList, Size := 1, Mode := 420,
      ModTime := 6, content := [2] },
    { Name := "blobs/sha256-c1".toList, Size := 1, Mode := 420, ModTime := 2,
      content := [12] },
    { Name := "blobs/sha256-aa".toList, Size := 3, Mode := 420, ModTime := 3,
      content := [20, 21, 22] } ]

/-- What the export of `c:3` from the demo store leaves in the output file. -/
def demoBroken : List TarEntry :=
  [ { Name := "manifests/registry.ollama.ai/library/c/3".toList, Size := 1, Mode := 420,
      ModTime := 7, content := [3] },
    { Name := "blobs/sha256-c0".toList, Size := 2, Mode := 420, ModTime := 1,
      content := [10, 11] } ]

/-- A store whose model `../u/m:1` has its manifest outside the `library` directory, with
the blobs of the demo store. -/
def trapFS : FS := fun p =>
  if p = "/store/manifests/registry.ollama.ai/u/m/1".toList then
    some { content := [1], mode := 420, modTime := 5 }
  else demoFS p

/-- The archive of the model `../u/m:1` of that store. -/
def trapArchive : List TarEntry :=
  [ { Name := "manifests/registry.ollama.ai/u/m/1".toList, Size := 1, Mode := 420,
      ModTime := 5, content := [1] },
    { Name := "blobs/sha256-c0".toList, Size := 2, Mode := 420, ModTime := 1,
      content := [10, 11] },
    { Name := "blobs/sha256-aa".toList, Size := 3, Mode := 420, ModTime := 3,
      content := [20, 21, 22] } ]

/-- A relative path all of whose elements, split at the slashes, are plain: the paths
`filepath.Clean` leaves as they are, such as `llama3` or `ns/model`. -/
def PlainPath (p : Str) : Prop :=
  ∀ c ∈ stringsSplit '/' p, PlainElem c

instance (p : Str) : Decidable (PlainPath p) := by
  unfold PlainPath
  infer_instance

/-- The demo store with one more model, `llama3:latest`, whose manifest is that of `a:1`. -/
def latestFS : FS := fun p =>
  if p = "/store/manifests/registry.ollama.ai/library/llama3/latest".toList then
    some { content := [1], mode := 420, modTime := 9 }
  else demoFS p

/-- The archive of the model `llama3:latest` of that store. -/
def latestArchive : List TarEntry :=
  [ { Name := "manifests/registry.ollama.ai/library/llama3/latest".toList, Size := 1,
      Mode := 420, ModTime := 9, content := [1] },
    { Name := "blobs/sha256-c0".toList, Size := 2, Mode := 420, ModTime := 1,
      content := [10, 11] },
    { Name := "blobs/sha256-aa".toList, Size := 3, Mode := 420, ModTime := 3,
      content := [20, 21, 22] } ]

/-- The checks of `ImportModels` an entry has to pass to be written: the manifest path
guard, `os.MkdirAll` and `os.Create`. -/
def entryAccepted (env : Env) (ollamaDir : Str) (header : TarEntry) : Bool :=
  !(stringsHasPrefix header.Name "manifests/".toList
      && !stringsHasPrefix header.Name getManifestBasePath)
    && env.canMkdirAll (filepathDir (filepathJoin [ollamaDir, header.Name]))
    && env.canCreate (filepathJoin [ollamaDir, header.Name])

/-- The file system after the entries are written below `ollamaDir`, in archive order. -/
def importWrites (env : Env) (ollamaDir : Str) : List TarEntry → FS → FS
  | [], fs => fs
  | header :: rest, fs =>
    importWrites env ollamaDir rest
      (writeFile fs (filepathJoin [ollamaDir, header.Name])
        { content := header.content, mode := env.createMode, modTime := env.now })

/-- Tells whether the cleaned path `p` lies in the directory `root` or below it: the
elements of `root` are followed by elements none of which is `..`. -/
def withinDir (root p : Str) : Bool :=
  let re := cleanElems (isRooted root) root
  let pe := cleanElems (isRooted p) p
  isRooted root == isRooted p && re.isPrefixOf pe && !(pe.drop re.length).contains ['.', '.']

/-- An environment in which every directory and file can be made; no manifest parses. -/
def openEnv : Env :=
  { homeDir := some "/home/user".toList
    unmarshal := fun _ => none
    canCreate := fun _ => true
    canMkdirAll := fun _ => true
    createMode := 420
    now := 0 }

/-- A tar entry with the given name and body. -/
def mkEntry (name : Str) (body : Bytes) : TarEntry :=
  { Name := name, Size := body.length, Mode := 420, ModTime := 0, content := body }

/-- The fixed manifest base prefix of the specification, with its trailing slash. -/
def specManifestBase : Str := "manifests/registry.ollama.ai/library/".toList

/-! ## Lemmas on the standard library -/

theorem stringsSplit_ne_nil (sep : Char) (s : Str) : stringsSplit sep s ≠ [] := by
  cases s with
  | nil => simp [stringsSplit]
  | cons c cs =>
    unfold stringsSplit
    split
    · simp
    · split <;> simp

theorem stringsSplit_cons_ne (sep c : Char) (cs h : Str) (t : List Str) (hc : c ≠ sep)
    (hs : stringsSplit sep cs = h :: t) : stringsSplit sep (c :: cs) = (c :: h) :: t := by
  simp [stringsSplit, hc, hs]

theorem stringsSplit_append_sep (sep : Char) (a b : Str) :
    stringsSplit sep (a ++ sep :: b) = stringsSplit sep a ++ stringsSplit sep b := by
  induction a with
  | nil => simp [stringsSplit]
  | cons c a ih =>
    by_cases hc : c = sep
    · simp [stringsSplit, hc, ih]
    · have hne := stringsSplit_ne_nil sep a
      cases hs : stringsSplit sep a with
      | nil => exact absurd hs hne
      | cons h t =>
        have e1 : stringsSplit sep (a ++ sep :: b) = h :: (t ++ stringsSplit sep b) := by
          rw [ih, hs]; rfl
        rw [List.cons_append, stringsSplit_cons_ne sep c _ _ _ hc e1,
          stringsSplit_cons_ne sep c _ _ _ hc hs]
        rfl

theorem stringsSplit_of_not_mem (sep : Char) (a : Str) (h : sep ∉ a) :
    stringsSplit sep a = [a] := by
  induction a with
  | nil => simp [stringsSplit]
  | cons c a ih =>
    simp only [List.mem_cons, not_or] at h
    have hc : c ≠ sep := fun e => h.1 e.symm
    simp [stringsSplit, hc, ih h.2]

theorem stringsSplit_joinSlash (l : List Str) (hl : l ≠ []) (h : ∀ c ∈ l, '/' ∉ c) :
    stringsSplit '/' (joinSlash l) = l := by
  induction l with
  | nil => exact absurd rfl hl
  | cons a t ih =>
    cases t with
    | nil => simpa [joinSlash] using stringsSplit_of_not_mem '/' a (h a (by simp))
    | cons b t =>
      have ha := stringsSplit_of_not_mem '/' a (h a (by simp))
      have ht := ih (by simp) (fun c hc => h c (List.mem_cons_of_mem _ hc))
      simp only [joinSlash, stringsSplit_append_sep, ha, ht, List.singleton_append]

theorem joinSlash_append (s l : List Str) (hs : s ≠ []) (hl : l ≠ []) :
    joinSlash (s ++ l) = joinSlash s ++ '/' :: joinSlash l := by
  induction s with
  | nil => exact absurd rfl hs
  | cons a t ih =>
    cases t with
    | nil =>
      cases l with
      | nil => exact absurd rfl hl
      | cons b l => simp [joinSlash]
    | cons b t =>
      have := ih (by simp)
      simp only [List.cons_append] at this ⊢
      simp only [joinSlash, this, List.append_assoc, List.cons_append]

theorem cleanStep_plain (rooted : Bool) (st : List Str) (c : Str) (h : PlainElem c) :
    cleanStep rooted st c = c :: st := by
  obtain ⟨h1, _, h3, h4⟩ := h
  simp [cleanStep, h1, h3, h4]

theorem foldl_cleanStep_plain (rooted : Bool) (l : List Str) (h : ∀ c ∈ l, PlainElem c)
    (st : List Str) : l.foldl (cleanStep rooted) st = l.reverse ++ st := by
  induction l generalizing st with
  | nil => simp
  | cons a t ih =>
    simp only [List.foldl_cons, cleanStep_plain rooted st a (h a (by simp))]
    rw [ih (fun c hc => h c (List.mem_cons_of_mem _ hc))]
    simp

theorem plain_no_slash (l : List Str) (h : ∀ c ∈ l, PlainElem c) : ∀ c ∈ l, '/' ∉ c :=
  fun c hc => (h c hc).2.1

/-- Cleaning `p/e₁/…/eₙ` keeps the elements of `p` and then the plain elements `eᵢ`. -/
theorem cleanElems_append_plain (rooted : Bool) (p : Str) (l : List Str) (hl : l ≠ [])
    (h : ∀ c ∈ l, PlainElem c) :
    cleanElems rooted (p ++ '/' :: joinSlash l) = cleanElems rooted p ++ l := by
  unfold cleanElems
  rw [stringsSplit_append_sep, stringsSplit_joinSlash l hl (plain_no_slash l h),
    List.foldl_append, foldl_cleanStep_plain rooted l h]
  simp

theorem cleanElems_plain (rooted : Bool) (l : List Str) (hl : l ≠ [])
    (h : ∀ c ∈ l, PlainElem c) : cleanElems rooted (joinSlash l) = l := by
  unfold cleanElems
  rw [stringsSplit_joinSlash l hl (plain_no_slash l h), foldl_cleanStep_plain rooted l h]
  simp

theorem joinSlash_plain_ne_nil (l : List Str) (hl : l ≠ []) (h : ∀ c ∈ l, PlainElem c) :
    joinSlash l ≠ [] := by
  cases l with
  | nil => exact absurd rfl hl
  | cons a t =>
    have ha := (h a (by simp)).1
    cases t with
    | nil => simpa [joinSlash] using ha
    | cons b t => simp [joinSlash, ha]

theorem joinSlash_plain_not_rooted (l : List Str) (h : ∀ c ∈ l, PlainElem c) :
    isRooted (joinSlash l) = false := by
  cases l with
  | nil => simp [joinSlash, isRooted]
  | cons a t =>
    obtain ⟨h1, h2, _, _⟩ := h a (by simp)
    cases a with
    | nil => exact absurd rfl h1
    | cons x xs =>
      have hx : x ≠ '/' := fun e => h2 (by simp [e])
      cases t with
      | nil => simp [joinSlash, isRooted, hx]
      | cons b t => simp [joinSlash, isRooted, hx]

theorem filepathJoin_nil_left (s : Str) (hs : s ≠ []) :
    filepathJoin [[], s] = filepathClean s := by
  cases s with
  | nil => exact absurd rfl hs
  | cons x xs => simp [filepathJoin, joinSlash]

theorem renderPath_append (rooted : Bool) (s l : List Str) (hl : l ≠ []) :
    renderPath rooted (s ++ l) =
      (if rooted then (if s = [] then ['/'] else '/' :: joinSlash s ++ ['/'])
        else (if s = [] then [] else joinSlash s ++ ['/'])) ++ joinSlash l := by
  by_cases hs : s = []
  · subst hs
    cases rooted <;> simp [renderPath, hl]
  · have hsl : s ++ l ≠ [] := by simp [hs]
    cases rooted <;> simp [renderPath, hs, hl, joinSlash_append s l hs hl]

/-- Joining a directory with a relative path of plain elements: the path is kept as it is,
behind a lead that depends on the directory only. -/
theorem filepathJoin_dir_plain (dir : Str) (l : List Str) (hl : l ≠ [])
    (h : ∀ c ∈ l, PlainElem c) :
    filepathJoin [dir, joinSlash l] = dirLead dir ++ joinSlash l := by
  have hj := joinSlash_plain_ne_nil l hl h
  cases dir with
  | nil =>
    rw [filepathJoin_nil_left _ hj]
    simp only [filepathClean, hj, if_false, joinSlash_plain_not_rooted l h,
      cleanElems_plain false l hl h]
    have := renderPath_append false [] l hl
    simpa [dirLead, isRooted, cleanElems, stringsSplit, cleanStep] using this
  | cons d ds =>
    have h1 : filepathJoin [d :: ds, joinSlash l] =
        filepathClean ((d :: ds) ++ '/' :: joinSlash l) := by
      simp [filepathJoin, joinSlash]
    have hr : isRooted ((d :: ds) ++ '/' :: joinSlash l) = isRooted (d :: ds) := by
      simp [isRooted]
    rw [h1]
    simp only [filepathClean, List.cons_append, reduceCtorEq, if_false]
    simp only [← List.cons_append, hr, cleanElems_append_plain _ (d :: ds) l hl h,
      renderPath_append _ _ l hl, dirLead]

/-- Joining the elements one by one gives the same path as joining the directory with the
relative path. -/
theorem filepathJoin_cons_plain (dir : Str) (l : List Str) (hl : l ≠ [])
    (h : ∀ c ∈ l, PlainElem c) :
    filepathJoin (dir :: l) = dirLead dir ++ joinSlash l := by
  rw [← filepathJoin_dir_plain dir l hl h]
  obtain ⟨a, t, rfl⟩ := List.exists_cons_of_ne_nil hl
  have ha := (h a (by simp)).1
  cases dir with
  | nil =>
    rw [filepathJoin_nil_left _ (joinSlash_plain_ne_nil (a :: t) hl h)]
    cases a with
    | nil => exact absurd rfl ha
    | cons y ys => simp [filepathJoin]
  | cons d ds => simp [filepathJoin, joinSlash]

/-! ## Lemmas on the two operations -/

theorem stringsCut_of_not_mem (sep : Char) (s : Str) (h : sep ∉ s) :
    stringsCut sep s = none := by
  induction s with
  | nil => rfl
  | cons c cs ih =>
    simp only [List.mem_cons, not_or] at h
    have hc : c ≠ sep := fun e => h.1 e.symm
    simp [stringsCut, hc, ih h.2]

theorem stringsCut_append_sep (sep : Char) (a b : Str) (h : sep ∉ a) :
    stringsCut sep (a ++ sep :: b) = some (a, b) := by
  induction a with
  | nil => simp [stringsCut]
  | cons c cs ih =>
    simp only [List.mem_cons, not_or] at h
    have hc : c ≠ sep := fun e => h.1 e.symm
    simp [stringsCut, hc, ih h.2]

theorem modelOf_of_no_colon (m : Str) (h : ':' ∉ m) : modelOf m = m := by
  unfold modelOf stringsSplitN2
  rw [stringsCut_of_not_mem ':' m h]
  rfl

theorem tagOf_of_no_colon (m : Str) (h : ':' ∉ m) : tagOf m = "latest".toList := by
  unfold tagOf stringsSplitN2
  rw [stringsCut_of_not_mem ':' m h]
  rfl

theorem modelOf_with_tag (m t : Str) (h : ':' ∉ m) : modelOf (m ++ ':' :: t) = m := by
  unfold modelOf stringsSplitN2
  rw [stringsCut_append_sep ':' m t h]
  rfl

theorem tagOf_with_tag (m t : Str) (h : ':' ∉ m) : tagOf (m ++ ':' :: t) = t := by
  unfold tagOf stringsSplitN2
  rw [stringsCut_append_sep ':' m t h]
  rfl

/-- When every entry passes the checks, the loop of `ImportModels` writes them all and
fails only if nothing was processed. -/
theorem importLoop_accepted (env : Env) (dir : Str) (entries : List TarEntry)
    (h : ∀ e ∈ entries, entryAccepted env dir e = true) (fs : FS) (processed : Nat) :
    importLoop env dir entries .eof fs processed =
      (if processed + entries.length = 0 then .error .noModels else .ok,
        importWrites env dir entries fs) := by
  induction entries generalizing fs processed with
  | nil =>
    by_cases hp : processed = 0 <;> simp [importLoop, importWrites, hp]
  | cons e rest ih =>
    have he := h e (by simp)
    simp only [entryAccepted, Bool.and_eq_true, Bool.not_eq_true'] at he
    obtain ⟨⟨h1, h2⟩, h3⟩ := he
    have ih1 := ih (fun x hx => h x (List.mem_cons_of_mem _ hx))
    simp only [importLoop, h1, h2, h3, Bool.false_eq_true, if_false, Bool.not_true, ih1,
      importWrites, List.length_cons]
    have : ¬ (processed + 1 + rest.length = 0) := by omega
    have : ¬ (processed + (rest.length + 1) = 0) := by omega
    simp [*]

theorem hex_no_sep (hex : Str) (h : hex.all isHexChar = true) : ':' ∉ hex ∧ '/' ∉ hex := by
  rw [List.all_eq_true] at h
  constructor
  · intro hm
    exact absurd (h _ hm) (by decide)
  · intro hm
    exact absurd (h _ hm) (by decide)

theorem isSha256Digest_form (digest : Str) (h : isSha256Digest digest = true) :
    ∃ hex, digest = "sha256:".toList ++ hex ∧ ':' ∉ hex ∧ '/' ∉ hex := by
  simp only [isSha256Digest, Bool.and_eq_true] at h
  obtain ⟨h1, h2⟩ := h
  obtain ⟨t, ht⟩ := List.isPrefixOf_iff_prefix.mp h1
  subst ht
  have hd : ("sha256:".toList ++ t).drop 7 = t := by
    show (['s', 'h', 'a', '2', '5', '6', ':'] ++ t).drop 7 = t
    rfl
  rw [hd] at h2
  exact ⟨t, rfl, hex_no_sep t h2⟩

theorem sha256_elem_plain (hex : Str) (h : '/' ∉ hex) :
    PlainElem ("sha256-".toList ++ hex) := by
  show PlainElem (['s', 'h', 'a', '2', '5', '6', '-'] ++ hex)
  refine ⟨by simp, ?_, by simp, by simp⟩
  simp only [List.mem_append, List.mem_cons, not_or]
  exact ⟨by decide, h⟩

theorem blobs_elems_plain (hex : Str) (h : '/' ∉ hex) :
    ∀ c ∈ ["blobs".toList, "sha256-".toList ++ hex], PlainElem c := by
  intro c hc
  simp only [List.mem_cons, List.mem_singleton, List.not_mem_nil, or_false] at hc
  rcases hc with rfl | rfl
  · decide
  · exact sha256_elem_plain hex h

/-- For a clean directory other than `/` and `.`, the lead of a join is the directory and
a slash. -/
theorem dirLead_clean (dir : Str) (hc : filepathClean dir = dir) (h1 : dir ≠ ['/'])
    (h2 : dir ≠ ['.']) : dirLead dir = dir ++ ['/'] := by
  have hne : dir ≠ [] := by
    intro e
    rw [e] at hc
    simp [filepathClean] at hc
  simp only [filepathClean, hne, if_false] at hc
  unfold dirLead
  by_cases hs : cleanElems (isRooted dir) dir = []
  · rw [hs] at hc
    cases hr : isRooted dir
    · rw [hr] at hc
      simp [renderPath] at hc
      exact absurd hc.symm h2
    · rw [hr] at hc
      simp [renderPath, joinSlash] at hc
      exact absurd hc.symm h1
  · cases hr : isRooted dir
    · rw [hr] at hc hs
      simp only [renderPath, hs, if_false, Bool.false_eq_true] at hc
      simp [hs, hc]
    · rw [hr] at hc hs
      simp only [renderPath, if_true] at hc
      simp only [hs, if_false, if_true]
      rw [hc]

theorem stringsSplit_two (a b : Str) (ha : ':' ∉ a) (hb : ':' ∉ b) :
    stringsSplit ':' (a ++ ':' :: b) = [a, b] := by
  rw [stringsSplit_append_sep, stringsSplit_of_not_mem ':' a ha,
    stringsSplit_of_not_mem ':' b hb]
  rfl

theorem getBlobPath_two (dir a b : Str) (ha : ':' ∉ a) (hb : ':' ∉ b) :
    getBlobPath dir (a ++ ':' :: b)
      = some (filepathJoin [dir, "blobs".toList, "sha256-".toList ++ b]) := by
  unfold getBlobPath
  rw [stringsSplit_two a b ha hb]
  rfl

/-- The path of the blob of a digest `sha256:<hex>`, and the name of its archive entry. -/
theorem getBlobPath_sha256 (dir hex : Str) (h1 : ':' ∉ hex) (h2 : '/' ∉ hex) :
    getBlobPath dir ("sha256:".toList ++ hex)
      = some (dirLead dir ++ ("blobs/sha256-".toList ++ hex)) := by
  have e := getBlobPath_two dir "sha256".toList hex (by decide) h1
  have e2 : "sha256".toList ++ ':' :: hex = "sha256:".toList ++ hex := rfl
  rw [e2] at e
  rw [e, filepathJoin_cons_plain dir _ (by simp) (blobs_elems_plain hex h2)]
  rfl

theorem addFileToTar_eq (fs : FS) (tw : List TarEntry) (src name : Str) :
    addFileToTar fs tw src name =
      match fileEntry fs src name with
      | none => .error (.openFailed src)
      | some e => .ok (tw ++ [e]) := by
  unfold addFileToTar fileEntry
  cases fs src <;> rfl

theorem blobEntry_path (fs : FS) (dir digest : Str) (e : TarEntry)
    (h : blobEntry fs dir digest = some e) : ∃ p, getBlobPath dir digest = some p := by
  unfold blobEntry at h
  cases hp : getBlobPath dir digest with
  | none => rw [hp] at h; exact absurd h (by simp)
  | some p => exact ⟨p, rfl⟩

theorem exportLayers_cons (fs : FS) (dir : Str) (l : ManifestLayer)
    (ls : List ManifestLayer) (tw : List TarEntry) :
    exportLayers fs dir (l :: ls) tw =
      match getBlobPath dir l.Digest with
      | none => (.indexPanic, tw)
      | some blobPath =>
        match blobEntry fs dir l.Digest with
        | none => (.error (.addLayerBlob (.openFailed blobPath)), tw)
        | some e => exportLayers fs dir ls (tw ++ [e]) := by
  rw [exportLayers]
  unfold blobEntry
  cases getBlobPath dir l.Digest with
  | none => rfl
  | some blobPath =>
    unfold addFileToTar fileEntry
    dsimp only
    cases fs blobPath <;> rfl

/-- When every layer has its entry, the layer loop writes these entries and ends well. -/
theorem exportLayers_of_some (fs : FS) (dir : Str) (ls : List ManifestLayer)
    (es : List TarEntry) (h : layerEntries fs dir ls = some es) (tw : List TarEntry) :
    exportLayers fs dir ls tw = (.ok, tw ++ es) := by
  induction ls generalizing es tw with
  | nil =>
    simp only [layerEntries, Option.some.injEq] at h
    subst h
    simp [exportLayers]
  | cons l ls ih =>
    rw [exportLayers_cons]
    unfold layerEntries at h
    cases hb : blobEntry fs dir l.Digest with
    | none => rw [hb] at h; exact absurd h (by simp)
    | some e =>
      obtain ⟨p, hp⟩ := blobEntry_path fs dir l.Digest e hb
      rw [hb] at h
      rw [hp]
      cases hr : layerEntries fs dir ls with
      | none => rw [hr] at h; exact absurd h (by simp)
      | some es1 =>
        rw [hr] at h
        simp only [Option.some.injEq] at h
        subst h
        show exportLayers fs dir ls (tw ++ [e]) = _
        rw [ih es1 hr]
        simp

/-- When the layer loop ends well, every layer has its entry. -/
theorem exportLayers_ok_inv (fs : FS) (dir : Str) (ls : List ManifestLayer)
    (tw : List TarEntry) (h : (exportLayers fs dir ls tw).1 = .ok) :
    ∃ es, layerEntries fs dir ls = some es := by
  induction ls generalizing tw with
  | nil => exact ⟨[], rfl⟩
  | cons l ls ih =>
    rw [exportLayers_cons] at h
    unfold layerEntries
    cases hp : getBlobPath dir l.Digest with
    | none => rw [hp] at h; exact absurd h (by simp)
    | some blobPath =>
      rw [hp] at h
      cases hb : blobEntry fs dir l.Digest with
      | none => rw [hb] at h; exact absurd h (by simp)
      | some e =>
        rw [hb] at h
        obtain ⟨es1, h1⟩ := ih _ h
        rw [h1]
        exact ⟨e :: es1, rfl⟩

theorem layerEntries_length (fs : FS) (dir : Str) (ls : List ManifestLayer)
    (es : List TarEntry) (h : layerEntries fs dir ls = some es) : es.length = ls.length := by
  induction ls generalizing es with
  | nil =>
    simp only [layerEntries, Option.some.injEq] at h
    subst h
    rfl
  | cons l ls ih =>
    unfold layerEntries at h
    cases hb : blobEntry fs dir l.Digest with
    | none => rw [hb] at h; exact absurd h (by simp)
    | some e =>
      rw [hb] at h
      cases hr : layerEntries fs dir ls with
      | none => rw [hr] at h; exact absurd h (by simp)
      | some es1 =>
        rw [hr] at h
        simp only [Option.some.injEq] at h
        subst h
        simp [ih es1 hr]

theorem exportModel_eq (env : Env) (fs : FS) (dir modelSpec : Str) (tw : List TarEntry) :
    exportModel env fs dir modelSpec tw =
      match fs (manifestPathOf dir modelSpec) with
      | none => (.error (.manifestNotFound (modelOf modelSpec) (tagOf modelSpec)), tw)
      | some _ =>
        match manifestOf env fs dir modelSpec with
        | none => (.error (.readManifest (manifestPathOf dir modelSpec)), tw)
        | some manifest =>
          match manifestEntry fs dir modelSpec with
          | none => (.error (.addManifest (.openFailed (manifestPathOf dir modelSpec))), tw)
          | some me =>
            match getBlobPath dir manifest.Config.Digest with
            | none => (.indexPanic, tw ++ [me])
            | some configBlobPath =>
              match blobEntry fs dir manifest.Config.Digest with
              | none => (.error (.addConfigBlob (.openFailed configBlobPath)), tw ++ [me])
              | some ce => exportLayers fs dir manifest.Layers (tw ++ [me] ++ [ce]) := by
  unfold exportModel manifestOf manifestEntry blobEntry manifestPathOf readManifest
    fileEntry addFileToTar
  dsimp only
  cases fs (filepathJoin [dir, getManifestPath (modelOf modelSpec) (tagOf modelSpec)]) with
  | none => rfl
  | some f =>
    dsimp only
    cases env.unmarshal f.content with
    | none => rfl
    | some manifest =>
      dsimp only
      cases getBlobPath dir manifest.Config.Digest with
      | none => rfl
      | some configBlobPath =>
        dsimp only
        cases fs configBlobPath <;> rfl

theorem fileEntry_exists (fs : FS) (src name : Str) (e : TarEntry)
    (h : fileEntry fs src name = some e) : ∃ f, fs src = some f := by
  unfold fileEntry at h
  cases hf : fs src with
  | none => rw [hf] at h; exact absurd h (by simp)
  | some f => exact ⟨f, rfl⟩

/-- When a specifier has its entries, the loop body writes them and ends well. -/
theorem exportModel_of_some (env : Env) (fs : FS) (dir modelSpec : Str)
    (es : List TarEntry) (h : modelEntries env fs dir modelSpec = some es)
    (tw : List TarEntry) : exportModel env fs dir modelSpec tw = (.ok, tw ++ es) := by
  rw [exportModel_eq]
  unfold modelEntries at h
  cases hm : manifestOf env fs dir modelSpec with
  | none => simp [hm] at h
  | some manifest =>
    cases hme : manifestEntry fs dir modelSpec with
    | none => simp [hm, hme] at h
    | some me =>
      cases hc : blobEntry fs dir manifest.Config.Digest with
      | none => simp [hm, hme, hc] at h
      | some ce =>
        cases hl : layerEntries fs dir manifest.Layers with
        | none => simp [hm, hme, hc, hl] at h
        | some les =>
          simp only [hm, hme, hc, hl, Option.some.injEq] at h
          subst h
          obtain ⟨f, hf⟩ := fileEntry_exists fs _ _ me hme
          obtain ⟨q, hq⟩ := blobEntry_path fs dir _ ce hc
          simp only [hf, hq, hc]
          rw [exportLayers_of_some fs dir _ les hl]
          simp

/-- When the loop body ends well, the specifier has its entries. -/
theorem exportModel_ok_inv (env : Env) (fs : FS) (dir modelSpec : Str)
    (tw : List TarEntry) (h : (exportModel env fs dir modelSpec tw).1 = .ok) :
    ∃ es, modelEntries env fs dir modelSpec = some es := by
  rw [exportModel_eq] at h
  unfold modelEntries
  cases hf : fs (manifestPathOf dir modelSpec) with
  | none => simp [hf] at h
  | some f =>
    cases hm : manifestOf env fs dir modelSpec with
    | none => simp [hf, hm] at h
    | some manifest =>
      cases hme : manifestEntry fs dir modelSpec with
      | none => simp [hf, hm, hme] at h
      | some me =>
        cases hq : getBlobPath dir manifest.Config.Digest with
        | none => simp [hf, hm, hme, hq] at h
        | some q =>
          cases hc : blobEntry fs dir manifest.Config.Digest with
          | none => simp [hf, hm, hme, hq, hc] at h
          | some ce =>
            simp only [hf, hm, hme, hq, hc] at h
            obtain ⟨les, hl⟩ := exportLayers_ok_inv fs dir _ _ h
            refine ⟨me :: ce :: les, ?_⟩
            simp only [hc, hl]

theorem modelEntries_length (env : Env) (fs : FS) (dir modelSpec : Str)
    (es : List TarEntry) (h : modelEntries env fs dir modelSpec = some es) :
    es.length = 2 + layerCount env fs dir modelSpec := by
  unfold modelEntries at h
  unfold layerCount
  cases hm : manifestOf env fs dir modelSpec with
  | none => simp [hm] at h
  | some manifest =>
    cases hme : manifestEntry fs dir modelSpec with
    | none => simp [hm, hme] at h
    | some me =>
      cases hc : blobEntry fs dir manifest.Config.Digest with
      | none => simp [hm, hme, hc] at h
      | some ce =>
        cases hl : layerEntries fs dir manifest.Layers with
        | none => simp [hm, hme, hc, hl] at h
        | some les =>
          simp only [hm, hme, hc, hl, Option.some.injEq] at h
          subst h
          simp only [List.length_cons, layerEntries_length fs dir _ les hl]
          omega

/-- When every specifier has its entries, the loop writes them in order and ends well. -/
theorem exportLoop_of_some (env : Env) (fs : FS) (dir : Str) (models : List Str)
    (es : List TarEntry) (h : archiveEntries env fs dir models = some es)
    (tw : List TarEntry) : exportLoop env fs dir models tw = (.ok, tw ++ es) := by
  induction models generalizing es tw with
  | nil =>
    simp only [archiveEntries, Option.some.injEq] at h
    subst h
    simp [exportLoop]
  | cons m rest ih =>
    unfold archiveEntries at h
    cases hm : modelEntries env fs dir m with
    | none => rw [hm] at h; exact absurd h (by simp)
    | some es1 =>
      rw [hm] at h
      cases hr : archiveEntries env fs dir rest with
      | none => rw [hr] at h; exact absurd h (by simp)
      | some es2 =>
        rw [hr] at h
        simp only [Option.some.injEq] at h
        subst h
        rw [exportLoop, exportModel_of_some env fs dir m es1 hm]
        show exportLoop env fs dir rest (tw ++ es1) = _
        rw [ih es2 hr]
        simp

/-- When the loop ends well, every specifier has its entries. -/
theorem exportLoop_ok_inv (env : Env) (fs : FS) (dir : Str) (models : List Str)
    (tw : List TarEntry) (h : (exportLoop env fs dir models tw).1 = .ok) :
    ∃ es, archiveEntries env fs dir models = some es := by
  induction models generalizing tw with
  | nil => exact ⟨[], rfl⟩
  | cons m rest ih =>
    rw [exportLoop] at h
    unfold archiveEntries
    cases hx : exportModel env fs dir m tw with
    | mk o tw3 =>
      rw [hx] at h
      cases o with
      | ok =>
        obtain ⟨es1, h1⟩ := exportModel_ok_inv env fs dir m tw (by rw [hx])
        obtain ⟨es2, h2⟩ := ih _ h
        rw [h1, h2]
        exact ⟨es1 ++ es2, rfl⟩
      | error e => exact absurd h (by simp)
      | indexPanic => exact absurd h (by simp)

theorem archiveEntries_length (env : Env) (fs : FS) (dir : Str) (models : List Str)
    (es : List TarEntry) (h : archiveEntries env fs dir models = some es) :
    es.length = entryCount env fs dir models := by
  induction models generalizing es with
  | nil =>
    simp only [archiveEntries, Option.some.injEq] at h
    subst h
    rfl
  | cons m rest ih =>
    unfold archiveEntries at h
    cases hm : modelEntries env fs dir m with
    | none => rw [hm] at h; exact absurd h (by simp)
    | some es1 =>
      rw [hm] at h
      cases hr : archiveEntries env fs dir rest with
      | none => rw [hr] at h; exact absurd h (by simp)
      | some es2 =>
        rw [hr] at h
        simp only [Option.some.injEq] at h
        subst h
        have h2 := ih es2 hr
        unfold entryCount at h2 ⊢
        simp only [List.length_append, List.map_cons, List.sum_cons,
          modelEntries_length env fs dir m es1 hm, h2]

/-- The result of `ExportModels` once the store root is expanded and the output file is
created. -/
theorem ExportModels_eq (env : Env) (fs : FS) (ollamaDir dir : Str) (models : List Str)
    (outputPath : Str) (hdir : expand_user env ollamaDir = some dir)
    (hout : env.canCreate outputPath = true) :
    ExportModels env fs ollamaDir models outputPath =
      ((exportLoop env fs dir models []).1, some (exportLoop env fs dir models []).2) := by
  unfold ExportModels
  rw [hdir]
  simp only [hout, if_true]

theorem exportLoop_append (env : Env) (fs : FS) (dir : Str) (pre rest : List Str)
    (tw tw1 : List TarEntry) (h : exportLoop env fs dir pre tw = (.ok, tw1)) :
    exportLoop env fs dir (pre ++ rest) tw = exportLoop env fs dir rest tw1 := by
  induction pre generalizing tw with
  | nil =>
    simp only [exportLoop, Prod.mk.injEq, true_and] at h
    subst h
    rfl
  | cons m pre ih =>
    rw [List.cons_append, exportLoop]
    rw [exportLoop] at h
    cases hx : exportModel env fs dir m tw with
    | mk o tw3 =>
      rw [hx] at h
      cases o with
      | ok => exact ih tw3 h
      | error e => simp at h
      | indexPanic => simp at h

theorem blobEntry_missing (fs : FS) (dir d p : Str) (hp : getBlobPath dir d = some p)
    (hmiss : fs p = none) : blobEntry fs dir d = none := by
  unfold blobEntry fileEntry
  rw [hp]
  dsimp only
  rw [hmiss]

/-- The layer loop at the first layer whose blob is missing. -/
theorem exportLayers_missing (fs : FS) (dir d p : Str) (hp : getBlobPath dir d = some p)
    (hmiss : fs p = none) (dl dpost : List Str)
    (hdl : ∀ x ∈ dl, (blobEntry fs dir x).isSome = true) (ls : List ManifestLayer)
    (hls : ls.map (fun l => l.Digest) = dl ++ d :: dpost) (tw : List TarEntry) :
    exportLayers fs dir ls tw
      = (.error (.addLayerBlob (.openFailed p)), tw ++ dl.filterMap (blobEntry fs dir)) := by
  induction dl generalizing ls tw with
  | nil =>
    cases ls with
    | nil => simp at hls
    | cons l ls =>
      simp only [List.map_cons, List.nil_append, List.cons.injEq] at hls
      rw [exportLayers_cons, hls.1, hp]
      simp only [blobEntry_missing fs dir d p hp hmiss, List.filterMap_nil, List.append_nil]
  | cons c dl ih =>
    cases ls with
    | nil => simp at hls
    | cons l ls =>
      simp only [List.map_cons, List.cons_append, List.cons.injEq] at hls
      have hc := hdl c (by simp)
      cases hb : blobEntry fs dir c with
      | none => simp [hb] at hc
      | some e =>
        obtain ⟨q, hq⟩ := blobEntry_path fs dir c e hb
        rw [exportLayers_cons, hls.1, hq]
        simp only [hb]
        rw [ih (fun x hx => hdl x (List.mem_cons_of_mem _ hx)) ls hls.2]
        simp [hb]

theorem manifestOf_file (env : Env) (fs : FS) (dir modelSpec : Str) (man : Manifest)
    (h : manifestOf env fs dir modelSpec = some man) :
    ∃ f, fs (manifestPathOf dir modelSpec) = some f := by
  unfold manifestOf readManifest at h
  cases hf : fs (manifestPathOf dir modelSpec) with
  | none => simp [hf] at h
  | some f => exact ⟨f, rfl⟩

theorem manifestEntry_of_file (fs : FS) (dir modelSpec : Str) (f : FileData)
    (h : fs (manifestPathOf dir modelSpec) = some f) :
    manifestEntry fs dir modelSpec
      = some { Name := getManifestPath (modelOf modelSpec) (tagOf modelSpec),
               Size := f.content.length, Mode := f.mode, ModTime := f.modTime,
               content := f.content } := by
  unfold manifestEntry fileEntry
  rw [h]

/-- The loop body when the manifest of the specifier is missing or does not parse: an
error, and nothing is written. -/
theorem exportModel_no_manifest (env : Env) (fs : FS) (dir modelSpec : Str)
    (tw : List TarEntry) (h : manifestOf env fs dir modelSpec = none) :
    (exportModel env fs dir modelSpec tw).1 ≠ .ok
      ∧ (exportModel env fs dir modelSpec tw).2 = tw := by
  rw [exportModel_eq]
  cases hf : fs (manifestPathOf dir modelSpec) with
  | none => simp
  | some f => simp [h]

theorem stripTrailingSlashes_append (x seg : Str) (hne : seg ≠ []) (hs : '/' ∉ seg) :
    stripTrailingSlashes (x ++ seg) = x ++ seg := by
  rcases List.eq_nil_or_concat seg with h | ⟨init, c, h⟩
  · exact absurd h hne
  · subst h
    have hc : c ≠ '/' := fun e => hs (by simp [e])
    simp [stripTrailingSlashes, List.dropWhile_cons, hc]

/-- The last element of a path that ends in a plain element. -/
theorem filepathBase_append_elem (x seg : Str) (hne : seg ≠ []) (hs : '/' ∉ seg) :
    filepathBase (x ++ '/' :: seg) = seg := by
  unfold filepathBase
  have h0 : x ++ '/' :: seg ≠ [] := by simp
  have h1 : stripTrailingSlashes (x ++ '/' :: seg) = x ++ '/' :: seg := by
    have := stripTrailingSlashes_append (x ++ ['/']) seg hne hs
    simpa using this
  simp only [h0, if_false, h1, stringsSplit_append_sep, stringsSplit_of_not_mem '/' seg hs]
  simp [hne]

theorem manifest_elems_plain (name tag : Str) (hn : PlainElem name) (ht : PlainElem tag) :
    ∀ c ∈ [name, tag], PlainElem c := by
  intro c hc
  simp only [List.mem_cons, List.mem_singleton, List.not_mem_nil, or_false] at hc
  rcases hc with rfl | rfl
  · exact hn
  · exact ht

/-- The manifest path of a plain name and a plain tag: the base prefix, the name, a slash
and the tag. -/
theorem getManifestPath_plain (name tag : Str) (hn : PlainElem name) (ht : PlainElem tag) :
    getManifestPath name tag = specManifestBase ++ name ++ '/' :: tag := by
  unfold getManifestPath
  rw [filepathJoin_cons_plain getManifestBasePath [name, tag] (by simp)
    (manifest_elems_plain name tag hn ht)]
  have h : dirLead getManifestBasePath = specManifestBase := by decide
  rw [h]
  simp [joinSlash]

/-- The name of the archive entry of `sha256:<hex>`, and the file it is read from. -/
theorem blobEntry_sha256 (fs : FS) (dir hex : Str) (h1 : ':' ∉ hex) (h2 : '/' ∉ hex) :
    blobEntry fs dir ("sha256:".toList ++ hex)
      = fileEntry fs (filepathJoin [dir, "blobs/sha256-".toList ++ hex])
          ("blobs/sha256-".toList ++ hex) := by
  have hj : filepathJoin [dir, "blobs/sha256-".toList ++ hex]
      = dirLead dir ++ ("blobs/sha256-".toList ++ hex) :=
    filepathJoin_dir_plain dir ["blobs".toList, "sha256-".toList ++ hex] (by simp)
      (blobs_elems_plain hex h2)
  have hplain := sha256_elem_plain hex h2
  have hb : filepathBase (dirLead dir ++ ("blobs/sha256-".toList ++ hex))
      = "sha256-".toList ++ hex := by
    have := filepathBase_append_elem (dirLead dir ++ "blobs".toList)
      ("sha256-".toList ++ hex) hplain.1 hplain.2.1
    rw [List.append_assoc] at this
    exact this
  have hn : filepathJoin ["blobs".toList, "sha256-".toList ++ hex]
      = "blobs/sha256-".toList ++ hex := by
    rw [filepathJoin_cons_plain "blobs".toList ["sha256-".toList ++ hex] (by simp)
      (fun c hc => by
        simp only [List.mem_singleton] at hc
        rw [hc]
        exact hplain)]
    have h : dirLead "blobs".toList = "blobs/".toList := by decide
    rw [h]
    rfl
  unfold blobEntry
  rw [getBlobPath_sha256 dir hex h1 h2]
  dsimp only
  rw [hb, hn, hj]

theorem fileEntry_name (fs : FS) (src name : Str) (e : TarEntry)
    (h : fileEntry fs src name = some e) :
    e.Name = name ∧ ∃ f, fs src = some f ∧ e.content = f.content := by
  unfold fileEntry at h
  cases hf : fs src with
  | none => simp [hf] at h
  | some f =>
    simp only [hf, Option.some.injEq] at h
    subst h
    exact ⟨rfl, f, rfl, rfl⟩

/-- A property of the entries written so far that every new layer entry has holds after
the layer loop, however it ends. -/
theorem exportLayers_forall (P : TarEntry → Prop) (fs : FS) (dir : Str)
    (ls : List ManifestLayer)
    (hb : ∀ l ∈ ls, ∀ e, blobEntry fs dir l.Digest = some e → P e) (tw : List TarEntry)
    (htw : ∀ e ∈ tw, P e) : ∀ e ∈ (exportLayers fs dir ls tw).2, P e := by
  induction ls generalizing tw with
  | nil => simpa [exportLayers] using htw
  | cons l ls ih =>
    rw [exportLayers_cons]
    cases hp : getBlobPath dir l.Digest with
    | none => simpa using htw
    | some q =>
      cases hc : blobEntry fs dir l.Digest with
      | none => simpa using htw
      | some e =>
        simp only []
        apply ih (fun x hx => hb x (List.mem_cons_of_mem _ hx))
        intro x hx
        simp only [List.mem_append, List.mem_singleton] at hx
        rcases hx with hx | rfl
        · exact htw x hx
        · exact hb l (by simp) x hc

/-- The same for the body of the loop over the specifiers. -/
theorem exportModel_forall (P : TarEntry → Prop) (env : Env) (fs : FS) (dir s : Str)
    (hm : ∀ e, manifestEntry fs dir s = some e → P e)
    (hb : ∀ man, manifestOf env fs dir s = some man →
      ∀ d ∈ manifestDigests man, ∀ e, blobEntry fs dir d = some e → P e)
    (tw : List TarEntry) (htw : ∀ e ∈ tw, P e) :
    ∀ e ∈ (exportModel env fs dir s tw).2, P e := by
  rw [exportModel_eq]
  cases hf : fs (manifestPathOf dir s) with
  | none => simpa using htw
  | some f =>
    cases hman : manifestOf env fs dir s with
    | none => simpa using htw
    | some man =>
      cases hme : manifestEntry fs dir s with
      | none => simpa using htw
      | some me =>
        dsimp only
        have h1 : ∀ e ∈ tw ++ [me], P e := by
          intro x hx
          simp only [List.mem_append, List.mem_singleton] at hx
          rcases hx with hx | rfl
          · exact htw x hx
          · exact hm x hme
        cases hq : getBlobPath dir man.Config.Digest with
        | none => exact h1
        | some q =>
          dsimp only
          cases hc : blobEntry fs dir man.Config.Digest with
          | none => exact h1
          | some ce =>
            dsimp only
            apply exportLayers_forall P fs dir man.Layers
            · intro l hl e he
              exact hb man hman l.Digest
                (by simp only [manifestDigests, List.mem_cons, List.mem_map]
                    exact Or.inr ⟨l, hl, rfl⟩) e he
            · intro x hx
              simp only [List.mem_append, List.mem_singleton] at hx
              rcases hx with hx | rfl
              · exact h1 x (by simpa using hx)
              · exact hb man hman _ (by simp [manifestDigests]) x hc

/-- The same for the loop over the specifiers. -/
theorem exportLoop_forall (P : TarEntry → Prop) (env : Env) (fs : FS) (dir : Str)
    (models : List Str)
    (hm : ∀ s ∈ models, ∀ e, manifestEntry fs dir s = some e → P e)
    (hb : ∀ s ∈ models, ∀ man, manifestOf env fs dir s = some man →
      ∀ d ∈ manifestDigests man, ∀ e, blobEntry fs dir d = some e → P e)
    (tw : List TarEntry) (htw : ∀ e ∈ tw, P e) :
    ∀ e ∈ (exportLoop env fs dir models tw).2, P e := by
  induction models generalizing tw with
  | nil => simpa [exportLoop] using htw
  | cons s rest ih =>
    rw [exportLoop]
    have h1 := exportModel_forall P env fs dir s (hm s (by simp)) (hb s (by simp)) tw htw
    cases hx : exportModel env fs dir s tw with
    | mk o tw3 =>
      rw [hx] at h1
      cases o with
      | ok =>
        exact ih (fun x hx => hm x (List.mem_cons_of_mem _ hx))
          (fun x hx => hb x (List.mem_cons_of_mem _ hx)) tw3 h1
      | error e => exact h1
      | indexPanic => exact h1

theorem manifestOf_unmarshal (env : Env) (fs : FS) (dir s : Str) (man : Manifest)
    (h : manifestOf env fs dir s = some man) : ∃ data, env.unmarshal data = some man := by
  unfold manifestOf readManifest at h
  cases hf : fs (manifestPathOf dir s) with
  | none => simp [hf] at h
  | some f =>
    simp only [hf] at h
    exact ⟨f.content, h⟩

/-- A path no entry is written to is left as it was. -/
theorem importWrites_untouched (env : Env) (dir : Str) (entries : List TarEntry) (fs : FS)
    (p : Str) (h : ∀ e ∈ entries, filepathJoin [dir, e.Name] ≠ p) :
    importWrites env dir entries fs p = fs p := by
  induction entries generalizing fs with
  | nil => rfl
  | cons e rest ih =>
    rw [importWrites, ih _ (fun x hx => h x (List.mem_cons_of_mem _ hx))]
    have hne : p ≠ filepathJoin [dir, e.Name] := fun eq => h e (by simp) eq.symm
    simp [writeFile, hne]

/-- When some entry is written to `p` and all entries written to `p` have the body `c`,
the file at `p` has the body `c` after the import. -/
theorem importWrites_lookup (env : Env) (dir : Str) (entries : List TarEntry) (fs : FS)
    (p : Str) (c : Bytes) (hsome : ∃ e ∈ entries, filepathJoin [dir, e.Name] = p)
    (hall : ∀ e ∈ entries, filepathJoin [dir, e.Name] = p → e.content = c) :
    ∃ f2, importWrites env dir entries fs p = some f2 ∧ f2.content = c := by
  induction entries generalizing fs with
  | nil =>
    obtain ⟨e, he, _⟩ := hsome
    simp at he
  | cons e rest ih =>
    by_cases hr : ∃ x ∈ rest, filepathJoin [dir, x.Name] = p
    · rw [importWrites]
      exact ih _ hr (fun x hx => hall x (List.mem_cons_of_mem _ hx))
    · have hr2 : ∀ x ∈ rest, filepathJoin [dir, x.Name] ≠ p :=
        fun x hx eq => hr ⟨x, hx, eq⟩
      have het : filepathJoin [dir, e.Name] = p := by
        obtain ⟨x, hx, hxp⟩ := hsome
        simp only [List.mem_cons] at hx
        rcases hx with rfl | hx
        · exact hxp
        · exact absurd hxp (hr2 x hx)
      rw [importWrites, importWrites_untouched env dir rest _ p hr2]
      refine ⟨{ content := e.content, mode := env.createMode, modTime := env.now }, ?_,
        hall e (by simp) het⟩
      simp [writeFile, het]

theorem layerEntries_of_all (fs : FS) (dir : Str) (ls : List ManifestLayer)
    (h : ∀ l ∈ ls, (blobEntry fs dir l.Digest).isSome = true) :
    ∃ les, layerEntries fs dir ls = some les := by
  induction ls with
  | nil => exact ⟨[], rfl⟩
  | cons l ls ih =>
    obtain ⟨les, hles⟩ := ih (fun x hx => h x (List.mem_cons_of_mem _ hx))
    have hl := h l (by simp)
    cases hb : blobEntry fs dir l.Digest with
    | none => simp [hb] at hl
    | some e =>
      refine ⟨e :: les, ?_⟩
      unfold layerEntries
      simp only [hb, hles]

theorem layerEntries_mem (fs : FS) (dir : Str) (ls : List ManifestLayer)
    (les : List TarEntry) (h : layerEntries fs dir ls = some les) :
    ∀ l ∈ ls, ∀ e, blobEntry fs dir l.Digest = some e → e ∈ les := by
  induction ls generalizing les with
  | nil => intro l hl; simp at hl
  | cons a ls ih =>
    unfold layerEntries at h
    cases hb : blobEntry fs dir a.Digest with
    | none => simp [hb] at h
    | some e0 =>
      cases hr : layerEntries fs dir ls with
      | none => simp [hb, hr] at h
      | some es1 =>
        simp only [hb, hr, Option.some.injEq] at h
        subst h
        intro l hl e he
        simp only [List.mem_cons] at hl
        rcases hl with rfl | hl
        · rw [hb] at he
          simp only [Option.some.injEq] at he
          simp [he]
        · exact List.mem_cons_of_mem _ (ih es1 hr l hl e he)

/-- The import target of a manifest entry with a plain name and tag. -/
theorem target_manifest (dir2 name tag : Str) (hn : PlainElem name) (ht : PlainElem tag) :
    filepathJoin [dir2, specManifestBase ++ name ++ '/' :: tag]
      = dirLead dir2 ++ (specManifestBase ++ name ++ '/' :: tag) := by
  have hl : ∀ c ∈ ["manifests".toList, "registry.ollama.ai".toList, "library".toList,
      name, tag], PlainElem c := by
    intro c hc
    simp only [List.mem_cons, List.mem_singleton, List.not_mem_nil, or_false] at hc
    rcases hc with rfl | rfl | rfl | rfl | rfl
    · decide
    · decide
    · decide
    · exact hn
    · exact ht
  have hj : joinSlash ["manifests".toList, "registry.ollama.ai".toList, "library".toList,
      name, tag] = specManifestBase ++ name ++ '/' :: tag := by
    simp [joinSlash, specManifestBase]
  rw [← hj]
  exact filepathJoin_dir_plain dir2 _ (by simp) hl

/-- The import target of a blob entry. -/
theorem target_blob (dir2 hex : Str) (h2 : '/' ∉ hex) :
    filepathJoin [dir2, "blobs/sha256-".toList ++ hex]
      = dirLead dir2 ++ ("blobs/sha256-".toList ++ hex) :=
  filepathJoin_dir_plain dir2 ["blobs".toList, "sha256-".toList ++ hex] (by simp)
    (blobs_elems_plain hex h2)

theorem manifest_name_ne_blob (name tag hex : Str) :
    specManifestBase ++ name ++ '/' :: tag ≠ "blobs/sha256-".toList ++ hex := by
  intro h
  have h2 := congrArg List.head? h
  simp [specManifestBase] at h2

theorem manifest_name_guard (name tag : Str) :
    stringsHasPrefix (specManifestBase ++ name ++ '/' :: tag) getManifestBasePath = true := by
  unfold stringsHasPrefix
  rw [List.isPrefixOf_iff_prefix]
  have h : specManifestBase = getManifestBasePath ++ ['/'] := by decide
  rw [h]
  exact ⟨['/'] ++ name ++ '/' :: tag, by simp⟩

theorem blob_name_guard (hex : Str) :
    stringsHasPrefix ("blobs/sha256-".toList ++ hex) "manifests/".toList = false := by
  rfl

theorem blobEntry_of_file (fs : FS) (dir d p : Str) (f : FileData)
    (hp : getBlobPath dir d = some p) (hf : fs p = some f) :
    (blobEntry fs dir d).isSome = true := by
  unfold blobEntry fileEntry
  rw [hp]
  dsimp only
  rw [hf]
  rfl

/-- The result of `ImportModels` when every entry passes the checks and there is one. -/
theorem ImportModels_accepted (env : Env) (fs : FS) (ollamaDir dir : Str)
    (entries : List TarEntry) (hdir : expand_user env ollamaDir = some dir)
    (hne : entries ≠ []) (h : ∀ e ∈ entries, entryAccepted env dir e = true) :
    ImportModels env fs ollamaDir (.tarGz entries .eof)
      = (.ok, importWrites env dir entries fs) := by
  unfold ImportModels
  rw [hdir]
  simp only [importLoop_accepted env dir entries h]
  have : entries.length ≠ 0 := by simpa using hne
  simp [this]

theorem demo_digests_sha256 (data : Bytes) (man : Manifest)
    (h : demoEnv.unmarshal data = some man) :
    ∀ d ∈ manifestDigests man, isSha256Digest d = true := by
  change demoUnmarshal data = some man at h
  unfold demoUnmarshal at h
  split at h
  · simp only [Option.some.injEq] at h
    subst h
    decide
  · split at h
    · simp only [Option.some.injEq] at h
      subst h
      decide
    · split at h
      · simp only [Option.some.injEq] at h
        subst h
        decide
      · exact absurd h (by simp)

theorem demo_blobs_exist :
    ∀ d ∈ manifestDigests demoManifestA,
      isSha256Digest d = true
        ∧ ∃ p f, getBlobPath "/store".toList d = some p ∧ demoFS p = some f := by
  intro d hd
  simp only [manifestDigests, demoManifestA, List.map_cons, List.map_nil, List.mem_cons, List.mem_singleton,
    List.not_mem_nil, or_false] at hd
  rcases hd with rfl | rfl
  · exact ⟨by decide, "/store/blobs/sha256-c0".toList,
      { content := [10, 11], mode := 420, modTime := 1 }, by decide, by decide⟩
  · exact ⟨by decide, "/store/blobs/sha256-aa".toList,
      { content := [20, 21, 22], mode := 420, modTime := 3 }, by decide, by decide⟩

/-- The loop of `ImportModels` at the first entry the path guard rejects: the error carries
the name of the entry, and only the entries before it are written. -/
theorem importLoop_rejects (env : Env) (dir : Str) (before : List TarEntry) (e : TarEntry)
    (later : List TarEntry) (tail : TarTail)
    (hacc : ∀ x ∈ before, entryAccepted env dir x = true)
    (h1 : stringsHasPrefix e.Name "manifests/".toList = true)
    (h2 : stringsHasPrefix e.Name getManifestBasePath = false) (fs : FS) (processed : Nat) :
    importLoop env dir (before ++ e :: later) tail fs processed
      = (.error (.invalidManifestPath e.Name), importWrites env dir before fs) := by
  induction before generalizing fs processed with
  | nil =>
    rw [List.nil_append, importLoop, h1, h2]
    rfl
  | cons x rest ih =>
    have hx := hacc x (by simp)
    simp only [entryAccepted, Bool.and_eq_true, Bool.not_eq_true'] at hx
    obtain ⟨⟨g1, g2⟩, g3⟩ := hx
    rw [List.cons_append, importLoop, g1, g2, g3]
    simp only [Bool.false_eq_true, if_false, Bool.not_true, importWrites]
    exact ih (fun y hy => hacc y (List.mem_cons_of_mem _ hy)) _ _

theorem layerEntries_all_some (fs : FS) (dir : Str) (ls : List ManifestLayer)
    (les : List TarEntry) (h : layerEntries fs dir ls = some les) :
    ∀ l ∈ ls, (blobEntry fs dir l.Digest).isSome = true := by
  induction ls generalizing les with
  | nil => intro l hl; simp at hl
  | cons a ls ih =>
    unfold layerEntries at h
    cases hb : blobEntry fs dir a.Digest with
    | none => simp [hb] at h
    | some e0 =>
      cases hr : layerEntries fs dir ls with
      | none => simp [hb, hr] at h
      | some es1 =>
        intro l hl
        simp only [List.mem_cons] at hl
        rcases hl with rfl | hl
        · rw [hb]; rfl
        · exact ih es1 hr l hl

/-- A specifier that has its entries has the blob of every digest of its manifest. -/
theorem modelEntries_blobs (env : Env) (fs : FS) (dir s : Str) (es : List TarEntry)
    (h : modelEntries env fs dir s = some es) (man : Manifest)
    (hman : manifestOf env fs dir s = some man) :
    ∀ d ∈ manifestDigests man, (blobEntry fs dir d).isSome = true := by
  unfold modelEntries at h
  rw [hman] at h
  cases hme : manifestEntry fs dir s with
  | none => simp [hme] at h
  | some me =>
    cases hc : blobEntry fs dir man.Config.Digest with
    | none => simp [hme, hc] at h
    | some ce =>
      cases hl : layerEntries fs dir man.Layers with
      | none => simp [hme, hc, hl] at h
      | some les =>
        intro d hd
        simp only [manifestDigests, List.mem_cons, List.mem_map] at hd
        rcases hd with rfl | ⟨l, hl2, rfl⟩
        · rw [hc]; rfl
        · exact layerEntries_all_some fs dir _ les hl l hl2

theorem archiveEntries_mem (env : Env) (fs : FS) (dir : Str) (models : List Str)
    (es : List TarEntry) (h : archiveEntries env fs dir models = some es) :
    ∀ s ∈ models, ∃ es1, modelEntries env fs dir s = some es1 := by
  induction models generalizing es with
  | nil => intro s hs; simp at hs
  | cons m rest ih =>
    unfold archiveEntries at h
    cases hm : modelEntries env fs dir m with
    | none => simp [hm] at h
    | some es1 =>
      cases hr : archiveEntries env fs dir rest with
      | none => simp [hm, hr] at h
      | some es2 =>
        intro s hs
        simp only [List.mem_cons] at hs
        rcases hs with rfl | hs
        · exact ⟨es1, hm⟩
        · exact ih es2 hr s hs

/-- A call of `ExportModels` whose list holds a specifier with a missing blob does not end
with `nil`. -/
theorem ExportModels_not_ok (env : Env) (fs : FS) (ollamaDir dir : Str) (models : List Str)
    (outputPath modelSpec : Str) (manifest : Manifest) (d p : Str)
    (hdir : expand_user env ollamaDir = some dir) (hs : modelSpec ∈ models)
    (hman : manifestOf env fs dir modelSpec = some manifest)
    (hd : d ∈ manifestDigests manifest)
    (hp : getBlobPath dir d = some p) (hmiss : fs p = none) :
    (ExportModels env fs ollamaDir models outputPath).1 ≠ .ok := by
  intro hok
  cases hc : env.canCreate outputPath with
  | false =>
    unfold ExportModels at hok
    rw [hdir] at hok
    simp [hc] at hok
  | true =>
    rw [ExportModels_eq env fs ollamaDir dir models outputPath hdir hc] at hok
    obtain ⟨es, hes⟩ := exportLoop_ok_inv env fs dir models [] hok
    obtain ⟨es1, hes1⟩ := archiveEntries_mem env fs dir models es hes modelSpec hs
    have h1 := modelEntries_blobs env fs dir modelSpec es1 hes1 manifest hman d hd
    rw [blobEntry_missing fs dir d p hp hmiss] at h1
    simp at h1

theorem joinSlash_cons_head (c : Char) (h : Str) (t : List Str) :
    joinSlash ((c :: h) :: t) = c :: joinSlash (h :: t) := by
  cases t with
  | nil => rfl
  | cons b t => simp [joinSlash]

/-- Joining the pieces of a split gives the string back. -/
theorem joinSlash_stringsSplit (p : Str) : joinSlash (stringsSplit '/' p) = p := by
  induction p with
  | nil => rfl
  | cons c cs ih =>
    have hne := stringsSplit_ne_nil '/' cs
    cases hs : stringsSplit '/' cs with
    | nil => exact absurd hs hne
    | cons h t =>
      rw [hs] at ih
      by_cases hc : c = '/'
      · subst hc
        have e : stringsSplit '/' ('/' :: cs) = [] :: h :: t := by
          simp [stringsSplit, hs]
        rw [e]
        show [] ++ '/' :: joinSlash (h :: t) = '/' :: cs
        rw [ih]
        rfl
      · rw [stringsSplit_cons_ne '/' c cs h t hc hs, joinSlash_cons_head, ih]

theorem plainPath_of_elem (c : Str) (h : PlainElem c) : PlainPath c := by
  unfold PlainPath
  rw [stringsSplit_of_not_mem '/' c h.2.1]
  intro x hx
  simp only [List.mem_singleton] at hx
  rw [hx]
  exact h

/-- The manifest path of a name and a tag that are plain paths: the base prefix, the name,
a slash and the tag. -/
theorem getManifestPath_plainPath (name tag : Str) (hn : PlainPath name)
    (ht : PlainPath tag) :
    getManifestPath name tag = specManifestBase ++ name ++ '/' :: tag := by
  have hl : ∀ c ∈ stringsSplit '/' name ++ stringsSplit '/' tag, PlainElem c := by
    intro c hc
    rcases List.mem_append.mp hc with h | h
    · exact hn c h
    · exact ht c h
  have hne : stringsSplit '/' name ++ stringsSplit '/' tag ≠ [] := by
    simp [stringsSplit_ne_nil]
  have hj : joinSlash (stringsSplit '/' name ++ stringsSplit '/' tag)
      = name ++ '/' :: tag := by
    rw [joinSlash_append _ _ (stringsSplit_ne_nil '/' name) (stringsSplit_ne_nil '/' tag),
      joinSlash_stringsSplit, joinSlash_stringsSplit]
  have h1 := filepathJoin_dir_plain getManifestBasePath _ hne hl
  rw [hj] at h1
  have hb : dirLead getManifestBasePath = specManifestBase := by decide
  rw [hb] at h1
  have hbase : getManifestBasePath = "manifests/registry.ollama.ai/library".toList := by
    decide
  have h2 : getManifestPath name tag
      = filepathJoin [getManifestBasePath, name ++ '/' :: tag] := by
    unfold getManifestPath
    rw [hbase]
    show filepathJoin ['m' :: "anifests/registry.ollama.ai/library".toList, name, tag]
      = filepathJoin ['m' :: "anifests/registry.ollama.ai/library".toList,
          name ++ '/' :: tag]
    simp only [filepathJoin, List.dropWhile_cons, reduceCtorEq, decide_False,
      Bool.false_eq_true, if_false, joinSlash]
  rw [h2, h1, List.append_assoc]

/-! ## The claims -/

/-- C9 (tag default): a specifier `m` without a colon is parsed to the name `m` and the
tag `latest`, as is the specifier `m:latest`; so both resolve the same manifest path,
that of `m` and `latest`, in every store directory, and `ExportModels` returns the same
result and writes the same archive entries for both, whatever the store and the output
path. -/
theorem tag_default (env : Env) (fs : FS) (ollamaDir m outputPath : Str) (h : ':' ∉ m) :
    (modelOf m = m ∧ tagOf m = "latest".toList)
      ∧ (modelOf (m ++ ":latest".toList) = m
          ∧ tagOf (m ++ ":latest".toList) = "latest".toList)
      ∧ modelOf m = modelOf (m ++ ":latest".toList)
      ∧ tagOf m = tagOf (m ++ ":latest".toList)
      ∧ getManifestPath (modelOf m) (tagOf m) = getManifestPath m "latest".toList
      ∧ getManifestPath (modelOf m) (tagOf m)
          = getManifestPath (modelOf (m ++ ":latest".toList))
              (tagOf (m ++ ":latest".toList))
      ∧ (∀ dir : Str,
          manifestPathOf dir m = filepathJoin [dir, getManifestPath m "latest".toList]
            ∧ manifestPathOf dir (m ++ ":latest".toList)
                = filepathJoin [dir, getManifestPath m "latest".toList])
      ∧ ExportModels env fs ollamaDir [m] outputPath
          = ExportModels env fs ollamaDir [m ++ ":latest".toList] outputPath := by
  have hm1 : modelOf m = m := modelOf_of_no_colon m h
  have ht1 : tagOf m = "latest".toList := tagOf_of_no_colon m h
  have hm2 : modelOf (m ++ ":latest".toList) = m := modelOf_with_tag m "latest".toList h
  have ht2 : tagOf (m ++ ":latest".toList) = "latest".toList :=
    tagOf_with_tag m "latest".toList h
  have hm : modelOf m = modelOf (m ++ ":latest".toList) := by rw [hm1, hm2]
  have ht : tagOf m = tagOf (m ++ ":latest".toList) := by rw [ht1, ht2]
  refine ⟨⟨hm1, ht1⟩, ⟨hm2, ht2⟩, hm, ht, by rw [hm1, ht1], by rw [hm, ht], ?_, ?_⟩
  · intro dir
    unfold manifestPathOf
    rw [hm1, ht1, hm2, ht2]
    exact ⟨rfl, rfl⟩
  · simp only [ExportModels, exportLoop, exportModel, hm, ht]

/-- Witness of `tag_default`: the specifiers `llama3` and `llama3:latest` on a store that
holds the model `llama3:latest`; both exports succeed and write its three entries. -/
theorem tag_default_witness :
    ':' ∉ "llama3".toList
      ∧ tagOf "llama3".toList = "latest".toList
      ∧ ExportModels demoEnv latestFS "/store".toList ["llama3".toList]
          "out.tar.gz".toList = (.ok, some latestArchive)
      ∧ ExportModels demoEnv latestFS "/store".toList ["llama3".toList] "out.tar.gz".toList
          = ExportModels demoEnv latestFS "/store".toList
              ["llama3".toList ++ ":latest".toList] "out.tar.gz".toList :=
  ⟨by decide,
    (tag_default demoEnv latestFS "/store".toList "llama3".toList "out.tar.gz".toList
      (by decide)).1.2,
    by decide,
    (tag_default demoEnv latestFS "/store".toList "llama3".toList "out.tar.gz".toList
      (by decide)).2.2.2.2.2.2.2⟩

/-- C10 (empty archive): once the store root is expanded, importing a well-formed archive
without entries fails with the empty-archive error and leaves the file system as it was;
and importing a well-formed archive with at least one entry, each of which passes the
checks of the loop, succeeds. -/
theorem empty_archive_is_error (env : Env) (fs : FS) (ollamaDir dir : Str)
    (hdir : expand_user env ollamaDir = some dir) :
    ImportModels env fs ollamaDir (.tarGz [] .eof) = (.error .noModels, fs)
      ∧ ∀ entries : List TarEntry, entries ≠ [] →
          (∀ e ∈ entries, entryAccepted env dir e = true) →
          (ImportModels env fs ollamaDir (.tarGz entries .eof)).1 = .ok := by
  refine ⟨by simp [ImportModels, hdir, importLoop], ?_⟩
  intro entries hne hacc
  simp only [ImportModels, hdir, importLoop_accepted env dir entries hacc]
  have : entries.length ≠ 0 := by simpa using hne
  simp [this]

/-- Witness of `empty_archive_is_error`: the store root `/store`. -/
theorem empty_archive_is_error_witness :
    expand_user openEnv "/store".toList = some "/store".toList
      ∧ ImportModels openEnv emptyFS "/store".toList (.tarGz [] .eof)
          = (.error .noModels, emptyFS) :=
  ⟨by decide,
    (empty_archive_is_error openEnv emptyFS "/store".toList "/store".toList (by decide)).1⟩

/-- C2 (path guard on import), evaluated at the failing input: `getManifestBasePath` has
no trailing slash; the entry `manifests/registry.ollama.ai/library-evil/x` starts with
`manifests/` and does not start with the base prefix
`manifests/registry.ollama.ai/library/`, yet `ImportModels` succeeds and writes the entry
below the store. -/
theorem guard_accepts_sibling_of_library :
    getManifestBasePath = "manifests/registry.ollama.ai/library".toList
      ∧ stringsHasPrefix "manifests/registry.ollama.ai/library-evil/x".toList
        "manifests/".toList = true
      ∧ stringsHasPrefix "manifests/registry.ollama.ai/library-evil/x".toList
          specManifestBase = false
      ∧ (ImportModels openEnv emptyFS "/store".toList
          (.tarGz [mkEntry "manifests/registry.ollama.ai/library-evil/x".toList [1, 2]]
            .eof)).1 = .ok
      ∧ (ImportModels openEnv emptyFS "/store".toList
          (.tarGz [mkEntry "manifests/registry.ollama.ai/library-evil/x".toList [1, 2]]
            .eof)).2 "/store/manifests/registry.ollama.ai/library-evil/x".toList
          = some { content := [1, 2], mode := 420, modTime := 0 } := by
  refine ⟨by decide, by decide, by decide, by decide, by decide⟩

/-- C3 (import never writes outside the store), evaluated at the failing input: with the
store root `/store`, an archive whose entries are named `../escaped` and
`manifests/registry.ollama.ai/library/../../../../etc/passwd` is imported with success, and
the two files are written at `/escaped` and `/etc/passwd`, outside `/store`. -/
theorem import_writes_outside_store :
    (ImportModels openEnv emptyFS "/store".toList
        (.tarGz [mkEntry "../escaped".toList [7],
          mkEntry "manifests/registry.ollama.ai/library/../../../../etc/passwd".toList [8]]
          .eof)).1 = .ok
      ∧ (ImportModels openEnv emptyFS "/store".toList
          (.tarGz [mkEntry "../escaped".toList [7],
            mkEntry "manifests/registry.ollama.ai/library/../../../../etc/passwd".toList [8]]
            .eof)).2 "/escaped".toList = some { content := [7], mode := 420, modTime := 0 }
      ∧ (ImportModels openEnv emptyFS "/store".toList
          (.tarGz [mkEntry "../escaped".toList [7],
            mkEntry "manifests/registry.ollama.ai/library/../../../../etc/passwd".toList [8]]
            .eof)).2 "/etc/passwd".toList = some { content := [8], mode := 420, modTime := 0 }
      ∧ withinDir "/store".toList "/escaped".toList = false
      ∧ withinDir "/store".toList "/etc/passwd".toList = false := by
  refine ⟨by decide, by decide, by decide, by decide, by decide⟩

/-- C4 (counterexample): `getBlobPath` does not reject malformed digests. For the digest
`sha256:ab:cd` (more than one colon) it returns a path built from the part `ab` only, and
for `md5:abc` (another algorithm) it returns the path of a `sha256-` blob. -/
theorem getBlobPath_accepts_malformed :
    getBlobPath "/store".toList "sha256:ab:cd".toList
        = some "/store/blobs/sha256-ab".toList
      ∧ getBlobPath "/store".toList "md5:abc".toList
        = some "/store/blobs/sha256-abc".toList := by
  refine ⟨by decide, by decide⟩

/-- C4 (amended): `getBlobPath` validates nothing. A digest without a colon yields no path
(the index expression panics); a digest with a colon yields the blob path of the text
between its first colon and the next one (or the end), whatever stands before the first
colon and after the second; and for `sha256:<hex>` with a store root that is a clean path
other than `/` and `.` the result is `<storeRoot>/blobs/sha256-<hex>`. -/
theorem getBlobPath_behaviour (ollamaDir algo hash more : Str) (ha : ':' ∉ algo)
    (hh : ':' ∉ hash) :
    (∀ digest : Str, ':' ∉ digest → getBlobPath ollamaDir digest = none)
      ∧ getBlobPath ollamaDir (algo ++ ':' :: hash)
          = some (filepathJoin [ollamaDir, "blobs".toList, "sha256-".toList ++ hash])
      ∧ getBlobPath ollamaDir (algo ++ ':' :: (hash ++ ':' :: more))
          = some (filepathJoin [ollamaDir, "blobs".toList, "sha256-".toList ++ hash])
      ∧ (∀ hex : Str, hex.all isHexChar = true → filepathClean ollamaDir = ollamaDir →
          ollamaDir ≠ ['/'] → ollamaDir ≠ ['.'] →
          getBlobPath ollamaDir ("sha256:".toList ++ hex)
            = some (ollamaDir ++ "/blobs/sha256-".toList ++ hex)) := by
  refine ⟨?_, getBlobPath_two ollamaDir algo hash ha hh, ?_, ?_⟩
  · intro digest hd
    unfold getBlobPath
    rw [stringsSplit_of_not_mem ':' digest hd]
    rfl
  · unfold getBlobPath
    rw [stringsSplit_append_sep, stringsSplit_append_sep,
      stringsSplit_of_not_mem ':' algo ha, stringsSplit_of_not_mem ':' hash hh]
    rfl
  · intro hex hhex hc h1 h2
    obtain ⟨n1, n2⟩ := hex_no_sep hex hhex
    rw [getBlobPath_sha256 ollamaDir hex n1 n2, dirLead_clean ollamaDir hc h1 h2]
    have : "/blobs/sha256-".toList = ['/'] ++ "blobs/sha256-".toList := rfl
    rw [this]
    simp only [List.append_assoc]

/-- Witness of `getBlobPath_behaviour`: the store root `/store` and the digests built from
`sha256`, `0a1f` and `zz`. -/
theorem getBlobPath_behaviour_witness :
    ':' ∉ "sha256".toList ∧ ':' ∉ "0a1f".toList
      ∧ getBlobPath "/store".toList ("sha256".toList ++ ':' :: "0a1f".toList)
          = some (filepathJoin ["/store".toList, "blobs".toList,
              "sha256-".toList ++ "0a1f".toList])
      ∧ getBlobPath "/store".toList ("sha256:".toList ++ "0a1f".toList)
          = some ("/store".toList ++ "/blobs/sha256-".toList ++ "0a1f".toList) :=
  ⟨by decide, by decide,
    (getBlobPath_behaviour "/store".toList "sha256".toList "0a1f".toList "zz".toList
      (by decide) (by decide)).2.1,
    (getBlobPath_behaviour "/store".toList "sha256".toList "0a1f".toList "zz".toList
      (by decide) (by decide)).2.2.2 "0a1f".toList (by decide) (by decide) (by decide)
      (by decide)⟩

/-- C5 (exact archive contents): when `ExportModels` succeeds, the entries of the archive
are exactly the concatenation, in specifier order, of the manifest entry, the config blob
entry and one entry per layer in manifest order of each specifier, and their number is the
sum over the specifiers of 2 plus the number of layers; nothing is added, dropped or
deduplicated. -/
theorem export_exact_contents (env : Env) (fs : FS) (ollamaDir dir : Str)
    (models : List Str) (outputPath : Str) (entries : List TarEntry)
    (hdir : expand_user env ollamaDir = some dir)
    (h : ExportModels env fs ollamaDir models outputPath = (.ok, some entries)) :
    archiveEntries env fs dir models = some entries
      ∧ entries.length = entryCount env fs dir models := by
  have hout : env.canCreate outputPath = true := by
    unfold ExportModels at h
    rw [hdir] at h
    cases hc : env.canCreate outputPath with
    | true => rfl
    | false => simp [hc] at h
  rw [ExportModels_eq env fs ollamaDir dir models outputPath hdir hout] at h
  simp only [Prod.mk.injEq, Option.some.injEq] at h
  obtain ⟨es, hes⟩ := exportLoop_ok_inv env fs dir models [] h.1
  have h2 := exportLoop_of_some env fs dir models es hes []
  rw [h2] at h
  simp only [List.nil_append] at h
  rw [← h.2]
  exact ⟨hes, archiveEntries_length env fs dir models es hes⟩

/-- Witness of `export_exact_contents`: the models `a:1` and `b:2` of the demo store share
the blob `sha256:aa`; the archive holds two manifest entries and that blob twice. -/
theorem export_exact_contents_witness :
    expand_user demoEnv "/store".toList = some "/store".toList
      ∧ ExportModels demoEnv demoFS "/store".toList ["a:1".toList, "b:2".toList]
          "result.tar.gz".toList = (.ok, some demoArchive)
      ∧ archiveEntries demoEnv demoFS "/store".toList ["a:1".toList, "b:2".toList]
          = some demoArchive
      ∧ demoArchive.length
          = entryCount demoEnv demoFS "/store".toList ["a:1".toList, "b:2".toList] :=
  ⟨by decide, by decide,
    export_exact_contents demoEnv demoFS "/store".toList "/store".toList
      ["a:1".toList, "b:2".toList] "result.tar.gz".toList demoArchive (by decide)
      (by decide)⟩

/-- C6 (missing blob aborts the export): let the manifest of `modelSpec` parse and let `d`
be the first digest of that manifest (config first, then the layers) whose blob file does
not exist. Then no call of `ExportModels` with `modelSpec` in its list ends with `nil`; and
when the specifiers before `modelSpec` are exported without failure, `ExportModels` returns
an error that carries the path of the missing blob, and the archive holds the entries of
the earlier specifiers, the manifest entry of `modelSpec` and the blobs before `d`: no entry
of a later specifier is written. -/
theorem missing_blob_aborts (env : Env) (fs : FS) (ollamaDir dir : Str)
    (before later : List Str) (modelSpec outputPath : Str) (written : List TarEntry)
    (manifest : Manifest) (found missing : List Str) (d p : Str)
    (hdir : expand_user env ollamaDir = some dir)
    (hout : env.canCreate outputPath = true)
    (hbefore : exportLoop env fs dir before [] = (.ok, written))
    (hman : manifestOf env fs dir modelSpec = some manifest)
    (hdigests : manifestDigests manifest = found ++ d :: missing)
    (hfound : ∀ x ∈ found, (blobEntry fs dir x).isSome = true)
    (hp : getBlobPath dir d = some p) (hmiss : fs p = none) :
    (∀ (models : List Str) (out : Str), modelSpec ∈ models →
        (ExportModels env fs ollamaDir models out).1 ≠ .ok)
      ∧ ∃ e me, (e = .addConfigBlob (.openFailed p) ∨ e = .addLayerBlob (.openFailed p))
        ∧ manifestEntry fs dir modelSpec = some me
        ∧ ExportModels env fs ollamaDir (before ++ modelSpec :: later) outputPath
            = (.error e, some (written ++ me :: found.filterMap (blobEntry fs dir))) := by
  refine ⟨fun models out hs =>
    ExportModels_not_ok env fs ollamaDir dir models out modelSpec manifest d p hdir hs hman
      (by rw [hdigests]; simp) hp hmiss, ?_⟩
  obtain ⟨f, hf⟩ := manifestOf_file env fs dir modelSpec manifest hman
  have hme := manifestEntry_of_file fs dir modelSpec f hf
  rw [ExportModels_eq env fs ollamaDir dir _ outputPath hdir hout,
    exportLoop_append env fs dir before _ [] written hbefore, exportLoop, exportModel_eq]
  simp only [hf, hman, hme]
  unfold manifestDigests at hdigests
  cases found with
  | nil =>
    simp only [List.nil_append, List.cons.injEq] at hdigests
    refine ⟨.addConfigBlob (.openFailed p), _, Or.inl rfl, rfl, ?_⟩
    rw [hdigests.1]
    simp only [hp, blobEntry_missing fs dir d p hp hmiss, List.filterMap_nil]
  | cons c dl =>
    simp only [List.cons_append, List.cons.injEq] at hdigests
    have hc := hfound c (by simp)
    cases hb : blobEntry fs dir c with
    | none => simp [hb] at hc
    | some ce =>
      obtain ⟨q, hq⟩ := blobEntry_path fs dir c ce hb
      refine ⟨.addLayerBlob (.openFailed p), _, Or.inr rfl, rfl, ?_⟩
      rw [hdigests.1]
      simp only [hq, hb]
      rw [exportLayers_missing fs dir d p hp hmiss dl missing
        (fun x hx => hfound x (List.mem_cons_of_mem _ hx)) manifest.Layers hdigests.2]
      simp [hb]

/-- Witness of `missing_blob_aborts`: the specifiers `a:1`, `c:3`, `b:2` of the demo store;
the layer blob `sha256:bb` of `c:3` is missing. -/
theorem missing_blob_aborts_witness :
    ∃ e me, (e = .addConfigBlob (.openFailed "/store/blobs/sha256-bb".toList)
          ∨ e = .addLayerBlob (.openFailed "/store/blobs/sha256-bb".toList))
      ∧ manifestEntry demoFS "/store".toList "c:3".toList = some me
      ∧ ExportModels demoEnv demoFS "/store".toList
          (["a:1".toList] ++ "c:3".toList :: ["b:2".toList]) "result.tar.gz".toList
          = (.error e, some (demoArchive.take 3
              ++ me :: ["sha256:c0".toList].filterMap (blobEntry demoFS "/store".toList))) :=
  (missing_blob_aborts demoEnv demoFS "/store".toList "/store".toList ["a:1".toList]
    ["b:2".toList] "c:3".toList "result.tar.gz".toList (demoArchive.take 3)
    { Layers := [{ Digest := "sha256:bb".toList }], Config := { Digest := "sha256:c0".toList } }
    ["sha256:c0".toList] [] "sha256:bb".toList "/store/blobs/sha256-bb".toList
    (by decide) (by decide) (by decide) (by decide) (by decide) (by decide) (by decide)
    (by decide)).2

/-- C7 (counterexample): exporting `c:3` from the demo store fails, because the layer blob
`sha256:bb` is missing, after the manifest and the config blob were written; the output
file is a well-formed archive of these two entries, and `ImportModels` on it succeeds. -/
theorem failed_export_leaves_importable_archive :
    ExportModels demoEnv demoFS "/store".toList ["c:3".toList] "result.tar.gz".toList
        = (.error (.addLayerBlob (.openFailed "/store/blobs/sha256-bb".toList)),
            some demoBroken)
      ∧ (ImportModels demoEnv emptyFS "/other".toList (.tarGz demoBroken .eof)).1 = .ok := by
  refine ⟨by decide, by decide⟩

/-- C7 (amended): when the manifest of the first specifier is missing or does not parse,
`ExportModels` fails before any entry is written, the output file is an archive without
entries, and `ImportModels` on that output file does not succeed, whatever the
environment and the store it imports into. -/
theorem failed_export_without_entries (env : Env) (fs : FS) (ollamaDir dir : Str)
    (modelSpec : Str) (later : List Str) (outputPath : Str)
    (hdir : expand_user env ollamaDir = some dir)
    (hout : env.canCreate outputPath = true)
    (hman : manifestOf env fs dir modelSpec = none) :
    (ExportModels env fs ollamaDir (modelSpec :: later) outputPath).1 ≠ .ok
      ∧ (ExportModels env fs ollamaDir (modelSpec :: later) outputPath).2 = some []
      ∧ ∀ (env2 : Env) (fs2 : FS) (root2 : Str) (entries : List TarEntry),
          (ExportModels env fs ollamaDir (modelSpec :: later) outputPath).2 = some entries →
          (ImportModels env2 fs2 root2 (.tarGz entries .eof)).1 ≠ .ok := by
  obtain ⟨h1, h2⟩ := exportModel_no_manifest env fs dir modelSpec [] hman
  have hloop : exportLoop env fs dir (modelSpec :: later) []
      = exportModel env fs dir modelSpec [] := by
    rw [exportLoop]
    cases hx : exportModel env fs dir modelSpec [] with
    | mk o tw =>
      rw [hx] at h1
      cases o with
      | ok => exact absurd rfl h1
      | error e => rfl
      | indexPanic => rfl
  have hexp := ExportModels_eq env fs ollamaDir dir (modelSpec :: later) outputPath hdir hout
  rw [hloop, h2] at hexp
  refine ⟨by rw [hexp]; exact h1, by rw [hexp], ?_⟩
  intro env2 fs2 root2 entries he
  rw [hexp] at he
  simp only [Option.some.injEq] at he
  subst he
  unfold ImportModels
  cases expand_user env2 root2 with
  | none => simp
  | some d => simp [importLoop]

/-- Witness of `failed_export_without_entries`: the demo store has no model `zzz`. -/
theorem failed_export_without_entries_witness :
    manifestOf demoEnv demoFS "/store".toList "zzz".toList = none
      ∧ (ExportModels demoEnv demoFS "/store".toList ["zzz".toList, "a:1".toList]
          "result.tar.gz".toList).2 = some [] :=
  ⟨by decide,
    (failed_export_without_entries demoEnv demoFS "/store".toList "/store".toList
      "zzz".toList ["a:1".toList] "result.tar.gz".toList (by decide) (by decide)
      (by decide)).2.1⟩

/-- C8 (counterexample): for the name `../u/m` and the tag `1` the manifest path is
`manifests/registry.ollama.ai/u/m/1`, not the base prefix followed by the name, a slash
and the tag; the export of the specifier `../u/m:1` from the store `trapFS` succeeds and
writes a manifest entry of that name, which does not start with the base prefix. -/
theorem getManifestPath_cleans_name :
    getManifestPath "../u/m".toList "1".toList = "manifests/registry.ollama.ai/u/m/1".toList
      ∧ getManifestPath "../u/m".toList "1".toList
          ≠ specManifestBase ++ "../u/m".toList ++ '/' :: "1".toList
      ∧ (ExportModels demoEnv trapFS "/store".toList ["../u/m:1".toList]
          "result.tar.gz".toList).2 = some trapArchive
      ∧ trapArchive.map (fun e => stringsHasPrefix e.Name specManifestBase
          || stringsHasPrefix e.Name "blobs/sha256-".toList) = [false, true, true] := by
  refine ⟨by decide, by decide, by decide, by decide⟩

/-- C8 (amended): when the model name and the tag of every specifier are plain paths (one
or more elements separated by single slashes, none of them empty, `.` or `..`), every
entry `ExportModels` writes, also when it fails and whatever the manifests hold, is either
the manifest entry of a specifier, named
`manifests/registry.ollama.ai/library/<name>/<tag>`, which is its `getManifestPath`, or the
blob entry of a digest of the manifest of a specifier, and for a digest `sha256:<hex>` that
entry is named `blobs/sha256-<hex>`; the body of such an entry is that of the store file
at the same relative path. So when every digest of the manifests of the specifiers has the
form `sha256:<hex>`, every entry has one of the two shapes. -/
theorem export_entry_shapes (env : Env) (fs : FS) (ollamaDir dir : Str) (models : List Str)
    (outputPath : Str) (entries : List TarEntry)
    (hdir : expand_user env ollamaDir = some dir)
    (hnames : ∀ s ∈ models, PlainPath (modelOf s) ∧ PlainPath (tagOf s))
    (hw : (ExportModels env fs ollamaDir models outputPath).2 = some entries) :
    (∀ e ∈ entries,
      (∃ s ∈ models, manifestEntry fs dir s = some e
          ∧ e.Name = getManifestPath (modelOf s) (tagOf s)
          ∧ e.Name = specManifestBase ++ modelOf s ++ '/' :: tagOf s
          ∧ ∃ f, fs (filepathJoin [dir, e.Name]) = some f ∧ e.content = f.content)
        ∨ (∃ s ∈ models, ∃ man, manifestOf env fs dir s = some man
          ∧ ∃ d ∈ manifestDigests man, blobEntry fs dir d = some e
            ∧ ∀ hex : Str, d = "sha256:".toList ++ hex → hex.all isHexChar = true →
                e.Name = "blobs/sha256-".toList ++ hex
                  ∧ ∃ f, fs (filepathJoin [dir, e.Name]) = some f
                      ∧ e.content = f.content))
      ∧ ((∀ s ∈ models, ∀ man, manifestOf env fs dir s = some man →
            ∀ d ∈ manifestDigests man, isSha256Digest d = true) →
          ∀ e ∈ entries,
            ((∃ s ∈ models, e.Name = getManifestPath (modelOf s) (tagOf s)
                  ∧ e.Name = specManifestBase ++ modelOf s ++ '/' :: tagOf s)
                ∨ (∃ hex, blobEntry fs dir ("sha256:".toList ++ hex) = some e
                  ∧ e.Name = "blobs/sha256-".toList ++ hex))
              ∧ ∃ f, fs (filepathJoin [dir, e.Name]) = some f ∧ e.content = f.content) := by
  have hout : env.canCreate outputPath = true := by
    unfold ExportModels at hw
    rw [hdir] at hw
    cases hc : env.canCreate outputPath with
    | true => rfl
    | false => simp [hc] at hw
  rw [ExportModels_eq env fs ollamaDir dir models outputPath hdir hout] at hw
  simp only [Option.some.injEq] at hw
  have hA : ∀ e ∈ entries,
      (∃ s ∈ models, manifestEntry fs dir s = some e
          ∧ e.Name = getManifestPath (modelOf s) (tagOf s)
          ∧ e.Name = specManifestBase ++ modelOf s ++ '/' :: tagOf s
          ∧ ∃ f, fs (filepathJoin [dir, e.Name]) = some f ∧ e.content = f.content)
        ∨ (∃ s ∈ models, ∃ man, manifestOf env fs dir s = some man
          ∧ ∃ d ∈ manifestDigests man, blobEntry fs dir d = some e
            ∧ ∀ hex : Str, d = "sha256:".toList ++ hex → hex.all isHexChar = true →
                e.Name = "blobs/sha256-".toList ++ hex
                  ∧ ∃ f, fs (filepathJoin [dir, e.Name]) = some f
                      ∧ e.content = f.content) := by
    rw [← hw]
    refine exportLoop_forall
      (fun e =>
        (∃ s ∈ models, manifestEntry fs dir s = some e
            ∧ e.Name = getManifestPath (modelOf s) (tagOf s)
            ∧ e.Name = specManifestBase ++ modelOf s ++ '/' :: tagOf s
            ∧ ∃ f, fs (filepathJoin [dir, e.Name]) = some f ∧ e.content = f.content)
          ∨ (∃ s ∈ models, ∃ man, manifestOf env fs dir s = some man
            ∧ ∃ d ∈ manifestDigests man, blobEntry fs dir d = some e
              ∧ ∀ hex : Str, d = "sha256:".toList ++ hex → hex.all isHexChar = true →
                  e.Name = "blobs/sha256-".toList ++ hex
                    ∧ ∃ f, fs (filepathJoin [dir, e.Name]) = some f
                        ∧ e.content = f.content))
      env fs dir models ?_ ?_ [] ?_
    · intro s hs e he
      obtain ⟨hn, f, hf, hcont⟩ := fileEntry_name fs _ _ e he
      refine Or.inl ⟨s, hs, he, hn, ?_, f, ?_, hcont⟩
      · rw [hn]
        exact getManifestPath_plainPath _ _ (hnames s hs).1 (hnames s hs).2
      · rw [hn]
        exact hf
    · intro s hs man hman d hd e he
      refine Or.inr ⟨s, hs, man, hman, d, hd, he, ?_⟩
      intro hex hdeq hhex
      subst hdeq
      obtain ⟨h1, h2⟩ := hex_no_sep hex hhex
      have he2 := he
      rw [blobEntry_sha256 fs dir hex h1 h2] at he2
      obtain ⟨hn, f, hf, hcont⟩ := fileEntry_name fs _ _ e he2
      refine ⟨hn, f, ?_, hcont⟩
      rw [hn]
      exact hf
    · intro e he
      simp at he
  refine ⟨hA, ?_⟩
  intro hdig e he
  rcases hA e he with ⟨s, hs, _, hn1, hn2, hprov⟩ | ⟨s, hs, man, hman, d, hd, hbe, hshape⟩
  · exact ⟨Or.inl ⟨s, hs, hn1, hn2⟩, hprov⟩
  · have hsha := hdig s hs man hman d hd
    obtain ⟨hex, hdeq, _, _⟩ := isSha256Digest_form d hsha
    have hhex : hex.all isHexChar = true := by
      simp only [isSha256Digest, Bool.and_eq_true] at hsha
      have hdrop : d.drop 7 = hex := by
        rw [hdeq]
        show (['s', 'h', 'a', '2', '5', '6', ':'] ++ hex).drop 7 = hex
        rfl
      rw [← hdrop]
      exact hsha.2
    obtain ⟨hn, hprov⟩ := hshape hex hdeq hhex
    rw [hdeq] at hbe
    exact ⟨Or.inr ⟨hex, hbe, hn⟩, hprov⟩

/-- C1 (counterexample): the store `trapFS` contains the model `../u/m:1` (its manifest
exists and parses, its blobs exist) and `ExportModels` succeeds on it, but the manifest
entry is named `manifests/registry.ollama.ai/u/m/1`, and `ImportModels` rejects the
archive with the invalid-manifest-path error. -/
theorem round_trip_fails_outside_library :
    manifestOf demoEnv trapFS "/store".toList "../u/m:1".toList
        = some { Layers := [{ Digest := "sha256:aa".toList }],
                 Config := { Digest := "sha256:c0".toList } }
      ∧ (blobEntry trapFS "/store".toList "sha256:c0".toList).isSome = true
      ∧ (blobEntry trapFS "/store".toList "sha256:aa".toList).isSome = true
      ∧ ExportModels demoEnv trapFS "/store".toList ["../u/m:1".toList]
          "result.tar.gz".toList = (.ok, some trapArchive)
      ∧ (ImportModels demoEnv emptyFS "/other".toList (.tarGz trapArchive .eof)).1
          = .error (.invalidManifestPath "manifests/registry.ollama.ai/u/m/1".toList) := by
  refine ⟨by decide, by decide, by decide, by decide, by decide⟩

/-- C1 (amended, round trip): let the model name `m` (without colon) and the tag `t` be
plain path elements, let the store contain the model `m:t` (the manifest file exists and
parses, every digest it references has the form `sha256:<hex>` and its blob file exists).
Then `ExportModels` of `m:t` succeeds, `ImportModels` of the archive it wrote into any
store (an empty one too) whose directories and files can be made succeeds, and afterwards
that store holds, at the same store-relative paths, a manifest file and a blob file for
every referenced digest with the same bytes as in the source store. -/
theorem export_import_round_trip (env : Env) (fs : FS) (ollamaDir dir m t outputPath : Str)
    (manifest : Manifest) (mf : FileData) (env2 : Env) (fs2 : FS) (root2 dir2 : Str)
    (hdir : expand_user env ollamaDir = some dir)
    (hout : env.canCreate outputPath = true)
    (hm : ':' ∉ m) (hname : PlainElem m) (htag : PlainElem t)
    (hfile : fs (filepathJoin [dir, getManifestPath m t]) = some mf)
    (hparse : env.unmarshal mf.content = some manifest)
    (hblobs : ∀ d ∈ manifestDigests manifest,
      isSha256Digest d = true ∧ ∃ p f, getBlobPath dir d = some p ∧ fs p = some f)
    (hdir2 : expand_user env2 root2 = some dir2)
    (hmk : ∀ p, env2.canMkdirAll p = true) (hcr : ∀ p, env2.canCreate p = true) :
    ∃ entries,
      ExportModels env fs ollamaDir [m ++ ':' :: t] outputPath = (.ok, some entries)
      ∧ (ImportModels env2 fs2 root2 (.tarGz entries .eof)).1 = .ok
      ∧ (∃ f2, (ImportModels env2 fs2 root2 (.tarGz entries .eof)).2
            (filepathJoin [dir2, getManifestPath m t]) = some f2
          ∧ f2.content = mf.content)
      ∧ ∀ d ∈ manifestDigests manifest, ∃ rel f f2,
          getBlobPath dir d = some (filepathJoin [dir, rel])
          ∧ fs (filepathJoin [dir, rel]) = some f
          ∧ (ImportModels env2 fs2 root2 (.tarGz entries .eof)).2
              (filepathJoin [dir2, rel]) = some f2
          ∧ f2.content = f.content := by
  have hsm : modelOf (m ++ ':' :: t) = m := modelOf_with_tag m t hm
  have hst : tagOf (m ++ ':' :: t) = t := tagOf_with_tag m t hm
  have hpath : manifestPathOf dir (m ++ ':' :: t) = filepathJoin [dir, getManifestPath m t] := by
    unfold manifestPathOf
    rw [hsm, hst]
  have hman : manifestOf env fs dir (m ++ ':' :: t) = some manifest := by
    unfold manifestOf readManifest
    rw [hpath, hfile]
    exact hparse
  have hme := manifestEntry_of_file fs dir (m ++ ':' :: t) mf (by rw [hpath]; exact hfile)
  rw [hsm, hst] at hme
  obtain ⟨me, hmedef⟩ : ∃ me : TarEntry, me = TarEntry.mk (getManifestPath m t)
      mf.content.length mf.mode mf.modTime mf.content := ⟨_, rfl⟩
  rw [← hmedef] at hme
  have hmen : me.Name = getManifestPath m t := by rw [hmedef]
  have hmec : me.content = mf.content := by rw [hmedef]
  clear hmedef
  have hmname := getManifestPath_plain m t hname htag
  have hbe : ∀ d ∈ manifestDigests manifest, (blobEntry fs dir d).isSome = true := by
    intro d hd
    obtain ⟨_, q, f, hq, hf⟩ := hblobs d hd
    exact blobEntry_of_file fs dir d q f hq hf
  obtain ⟨ce, hce⟩ : ∃ ce, blobEntry fs dir manifest.Config.Digest = some ce :=
    Option.isSome_iff_exists.mp (hbe _ (by simp [manifestDigests]))
  obtain ⟨les, hles⟩ := layerEntries_of_all fs dir manifest.Layers (fun l hl =>
    hbe l.Digest (by
      simp only [manifestDigests, List.mem_cons, List.mem_map]
      exact Or.inr ⟨l, hl, rfl⟩))
  have hmodel : modelEntries env fs dir (m ++ ':' :: t) = some (me :: ce :: les) := by
    unfold modelEntries
    simp only [hman, hme, hce, hles]
  have harch : archiveEntries env fs dir [m ++ ':' :: t] = some (me :: ce :: les) := by
    simp [archiveEntries, hmodel]
  have hloop := exportLoop_of_some env fs dir _ _ harch []
  rw [List.nil_append] at hloop
  have hexp := ExportModels_eq env fs ollamaDir dir [m ++ ':' :: t] outputPath hdir hout
  rw [hloop] at hexp
  -- what the entries are
  have hQ : ∀ e ∈ me :: ce :: les,
      (e.Name = specManifestBase ++ m ++ '/' :: t ∧ e.content = mf.content)
        ∨ (∃ hex, '/' ∉ hex ∧ blobEntry fs dir ("sha256:".toList ++ hex) = some e
            ∧ e.Name = "blobs/sha256-".toList ++ hex) := by
    have h0 := exportLoop_forall
      (fun e => (e.Name = specManifestBase ++ m ++ '/' :: t ∧ e.content = mf.content)
        ∨ (∃ hex, '/' ∉ hex ∧ blobEntry fs dir ("sha256:".toList ++ hex) = some e
            ∧ e.Name = "blobs/sha256-".toList ++ hex))
      env fs dir [m ++ ':' :: t] ?_ ?_ [] (by intro e he; simp at he)
    · rw [hloop] at h0
      exact h0
    · intro s hs e he
      simp only [List.mem_singleton] at hs
      subst hs
      rw [hme] at he
      simp only [Option.some.injEq] at he
      subst he
      exact Or.inl ⟨by rw [hmen, hmname], hmec⟩
    · intro s hs man2 hman2 d hd e he
      simp only [List.mem_singleton] at hs
      subst hs
      rw [hman] at hman2
      simp only [Option.some.injEq] at hman2
      subst hman2
      obtain ⟨hex, rfl, h1, h2⟩ := isSha256Digest_form d (hblobs d hd).1
      have he2 := he
      rw [blobEntry_sha256 fs dir hex h1 h2] at he2
      exact Or.inr ⟨hex, h2, he, (fileEntry_name fs _ _ e he2).1⟩
  -- every entry passes the checks of the import
  have hacc : ∀ e ∈ me :: ce :: les, entryAccepted env2 dir2 e = true := by
    intro e he
    rcases hQ e he with ⟨hn, _⟩ | ⟨hex, _, _, hn⟩
    · simp only [entryAccepted, hn, manifest_name_guard m t, hmk, hcr, Bool.not_true,
        Bool.and_false, Bool.not_false, Bool.and_self]
    · simp only [entryAccepted, hn, blob_name_guard, hmk, hcr]
      rfl
  have himp := ImportModels_accepted env2 fs2 root2 dir2 _ hdir2 (by simp) hacc
  -- the target of an entry
  have htarget : ∀ e ∈ me :: ce :: les, filepathJoin [dir2, e.Name] = dirLead dir2 ++ e.Name := by
    intro e he
    rcases hQ e he with ⟨hn, _⟩ | ⟨hex, h2, _, hn⟩
    · rw [hn]
      exact target_manifest dir2 m t hname htag
    · rw [hn]
      exact target_blob dir2 hex h2
  refine ⟨_, hexp, by rw [himp], ?_, ?_⟩
  · rw [himp]
    apply importWrites_lookup
    · exact ⟨me, List.mem_cons_self _ _, by rw [hmen]⟩
    · intro e he heq
      rcases hQ e he with ⟨_, hc⟩ | ⟨hex, h2, _, hn⟩
      · exact hc
      · rw [htarget e he, hn, hmname, target_manifest dir2 m t hname htag] at heq
        exact absurd (List.append_cancel_left heq).symm (manifest_name_ne_blob m t hex)
  · intro d hd
    obtain ⟨hex, rfl, h1, h2⟩ := isSha256Digest_form d (hblobs d hd).1
    obtain ⟨ed, hed⟩ := Option.isSome_iff_exists.mp (hbe _ hd)
    have hed2 := hed
    rw [blobEntry_sha256 fs dir hex h1 h2] at hed2
    obtain ⟨hedn, f, hf, hfc⟩ := fileEntry_name fs _ _ ed hed2
    have hmem : ed ∈ me :: ce :: les := by
      simp only [manifestDigests, List.mem_cons, List.mem_map] at hd
      rcases hd with hd | ⟨l, hl, hld⟩
      · rw [hd, hce] at hed
        simp only [Option.some.injEq] at hed
        simp [hed]
      · rw [← hld] at hed
        have := layerEntries_mem fs dir manifest.Layers les hles l hl ed hed
        simp [this]
    refine ⟨"blobs/sha256-".toList ++ hex, f, ?_⟩
    have hlook := importWrites_lookup env2 dir2 _ fs2
      (filepathJoin [dir2, "blobs/sha256-".toList ++ hex]) f.content
      ⟨ed, hmem, by rw [hedn]⟩
      (by
        intro e he heq
        rcases hQ e he with ⟨hn, _⟩ | ⟨hex2, _, hb2, hn⟩
        · rw [htarget e he, hn, target_blob dir2 hex h2] at heq
          exact absurd (List.append_cancel_left heq) (manifest_name_ne_blob m t hex)
        · rw [htarget e he, hn, target_blob dir2 hex h2] at heq
          have hh : hex2 = hex := List.append_cancel_left (List.append_cancel_left heq)
          subst hh
          rw [hed] at hb2
          simp only [Option.some.injEq] at hb2
          rw [← hb2]
          exact hfc)
    obtain ⟨f2, hf2, hc2⟩ := hlook
    refine ⟨f2, ?_, hf, ?_, hc2⟩
    · rw [getBlobPath_sha256 dir hex h1 h2, target_blob dir hex h2]
    · rw [himp]
      exact hf2

/-- Witness of `export_import_round_trip`: the model `a:1` of the demo store, imported
into an empty store at `/other`. -/
theorem export_import_round_trip_witness :
    ∃ entries,
      ExportModels demoEnv demoFS "/store".toList ["a".toList ++ ':' :: "1".toList]
          "result.tar.gz".toList = (.ok, some entries)
      ∧ (ImportModels openEnv emptyFS "/other".toList (.tarGz entries .eof)).1 = .ok
      ∧ (∃ f2, (ImportModels openEnv emptyFS "/other".toList (.tarGz entries .eof)).2
            (filepathJoin ["/other".toList, getManifestPath "a".toList "1".toList]) = some f2
          ∧ f2.content = [1])
      ∧ ∀ d ∈ manifestDigests demoManifestA, ∃ rel f f2,
          getBlobPath "/store".toList d = some (filepathJoin ["/store".toList, rel])
          ∧ demoFS (filepathJoin ["/store".toList, rel]) = some f
          ∧ (ImportModels openEnv emptyFS "/other".toList (.tarGz entries .eof)).2
              (filepathJoin ["/other".toList, rel]) = some f2
          ∧ f2.content = f.content :=
  export_import_round_trip demoEnv demoFS "/store".toList "/store".toList "a".toList
    "1".toList "result.tar.gz".toList demoManifestA
    { content := [1], mode := 420, modTime := 5 } openEnv emptyFS "/other".toList
    "/other".toList (by decide) (by decide) (by decide) (by decide) (by decide) (by decide)
    (by decide) demo_blobs_exist (by decide) (fun _ => rfl) (fun _ => rfl)

/-- Witness of `export_entry_shapes`: the models `a:1` and `b:2` of the demo store, and
the entry of their shared blob. -/
theorem export_entry_shapes_witness :
    ((∃ s ∈ ["a:1".toList, "b:2".toList],
          demoSharedBlob.Name = getManifestPath (modelOf s) (tagOf s)
          ∧ demoSharedBlob.Name = specManifestBase ++ modelOf s ++ '/' :: tagOf s)
        ∨ (∃ hex, blobEntry demoFS "/store".toList ("sha256:".toList ++ hex)
              = some demoSharedBlob
          ∧ demoSharedBlob.Name = "blobs/sha256-".toList ++ hex))
      ∧ ∃ f, demoFS (filepathJoin ["/store".toList, demoSharedBlob.Name]) = some f
          ∧ demoSharedBlob.content = f.content :=
  (export_entry_shapes demoEnv demoFS "/store".toList "/store".toList
    ["a:1".toList, "b:2".toList] "result.tar.gz".toList demoArchive (by decide) (by decide)
    (by decide)).2
    (fun s _ man hman =>
      (manifestOf_unmarshal demoEnv demoFS "/store".toList s man hman).elim
        (fun data hdata => demo_digests_sha256 data man hdata))
    demoSharedBlob (by decide)

end OllamaSave
